import Mathlib

/-!
Verification of the holper start-time scheduler core.

Shallow embedding of `holper/affine_seq.py`, `holper/tools.py` and
`holper/start.py`. Python integers are modelled as `Int` (they are unbounded),
Python lists as `List`, dictionaries as association lists in insertion order,
iterators as explicit list state, and raised exceptions as `Except` results.
Python's `%` and `//` on a positive right operand agree with `Int.emod` and
`Int.ediv`, which are the `%` and `/` of `Int` here.  Python's stable sorts
(`sorted`, `list.sort`) are modelled by stable insertion sort; `random.shuffle`
is modelled by an arbitrary permutation-preserving parameter; time offsets
(`timedelta`) are whole minutes, modelled as `Int`.
-/

namespace Holper

/-! ## affine_seq.py -/

/-- Rounding of a nonnegative integer to the nearest IEEE-754 double
(53 significant bits, round-to-nearest, ties-to-even), kept as an integer.
CPython's `int.__truediv__` returns the correctly rounded double of the exact
quotient, so an integer-valued quotient `q` comes out as exactly this value,
and the `int(...)` truncation is then the identity.  Integers below `2^53`
are exact; above, `q` is rounded at the `⌊log2 q⌋ - 52` lowest bits.
(Quotients at or above `2^1024` make CPython raise `OverflowError`; every
theorem below stays far under `2^55`, so that regime is never entered.) -/
def bitLen : Nat → Nat → Nat
  | 0, _ => 0
  | fuel+1, q => if q = 0 then 0 else bitLen fuel (q / 2) + 1

def roundDouble (q : Nat) : Nat :=
  if q < 2^53 then q
  else
    let k := bitLen q q - 53
    let m := q / 2^k
    let r := q % 2^k
    let half := 2^(k-1)
    if half < r ∨ (r = half ∧ m % 2 = 1) then (m + 1) * 2^k else m * 2^k

/-- `affine_seq.lcm`: `if not int1 or not int2: return 0` then
`int(abs(int1 * int2) / gcd(int1, int2))`.  The `/` is float true division:
its exact quotient `|int1*int2| / gcd` is an integer (the gcd divides the
product), which the division rounds to double precision (`roundDouble`) and
the `int(...)` truncates (a no-op on the integer-valued result).  The result
therefore differs from the mathematical lcm once the lcm reaches `2^53`. -/
def lcm (int1 int2 : Int) : Int :=
  if int1 = 0 ∨ int2 = 0 then 0
  else (roundDouble ((int1 * int2).natAbs / Int.gcd int1 int2) : Int)

/-- `AffineSeq.__slots__ = ["start", "step", "stop"]`. -/
structure AffineSeq where
  start : Int
  stop : Int
  step : Int
deriving DecidableEq, Repr

namespace AffineSeq

/-- `len(self)` = `len(range(start, stop, step))`, which for a positive step is
`max(0, (stop - start + step - 1) // step)`. -/
def length (s : AffineSeq) : Nat :=
  ((s.stop - s.start + s.step - 1) / s.step).toNat

/-- The terms of `range(start, stop, step)` in iteration order (`__iter__`). -/
def toList (s : AffineSeq) : List Int :=
  (List.range s.length).map fun (k : Nat) => s.start + s.step * (k : Int)

/-- `__contains__`: `self.start <= item < self.stop and (item - self.start) % self.step == 0`. -/
def containsi (s : AffineSeq) (item : Int) : Bool :=
  decide (s.start ≤ item) && decide (item < s.stop) &&
    decide ((item - s.start) % s.step = 0)

/-- `__and__` (`intersect`): `start = max(...)`, `stop = min(...)`,
`step = lcm(...)`; if `(self.start - other.start) % gcd(self.step, other.step)`
is nonzero the result is emptied (`stop = start`); otherwise the first term of
`self` that is in `other` anchors the new start, and if none exists the result
is emptied. -/
def inter (self other : AffineSeq) : AffineSeq :=
  if (self.start - other.start) % (Int.gcd self.step other.step : Int) ≠ 0 then
    ⟨max self.start other.start, max self.start other.start, lcm self.step other.step⟩
  else
    match self.toList.find? (fun item => other.containsi item) with
    | some item => ⟨item, min self.stop other.stop, lcm self.step other.step⟩
    | none => ⟨max self.start other.start, max self.start other.start, lcm self.step other.step⟩

end AffineSeq

/-- The compile-time regex `(?P<interval>[0-9]*)n(?:\+(?P<offset>[0-9]+))?` used
with `re.match`, i.e. anchored at the beginning of the string only.  Matching
succeeds iff the maximal leading digit run is followed by a literal `n`; the
optional offset group matches iff a `+` and at least one digit follow.  Returns
`(interval group digits, offset group digits)`; trailing characters are
ignored, exactly as `re.match` ignores them. -/
def reMatch (s : List Char) : Option (List Char × Option (List Char)) :=
  let ds := s.takeWhile Char.isDigit
  match s.drop ds.length with
  | c :: rest =>
      if c = 'n' then
        match rest with
        | c2 :: r2 =>
            if c2 = '+' then
              let os := r2.takeWhile Char.isDigit
              if os.isEmpty then some (ds, none) else some (ds, some os)
            else some (ds, none)
        | [] => some (ds, none)
      else none
  | [] => none

/-- Value of a digit string, as Python `int` on a nonempty digit string. -/
def digitsVal (ds : List Char) : Nat :=
  ds.foldl (fun acc c => 10 * acc + (c.toNat - 48)) 0

/-- The first constructor argument is `int | str`. -/
inductive StartArg
  | int (i : Int)
  | str (s : List Char)

/-- `AffineSeq.__init__`: a string first argument is parsed with the regex
(`ValueError` if there is no match; the interval group defaults to 1 when
empty, the offset group to 0 when absent); an int argument is taken as the
start together with the given step argument.  Finally `step < 1` raises
`ValueError`. -/
def affineInit (start : StartArg) (stop step : Int) : Except String AffineSeq :=
  let parsed : Except String (Int × Int) :=
    match start with
    | .str s =>
        match reMatch s with
        | none => .error "invalid format"
        | some (ds, os) =>
            .ok ((match os with | some o => ((digitsVal o : Int)) | none => 0),
              (if ds.isEmpty then 1 else (digitsVal ds : Int)))
    | .int i => .ok (i, step)
  match parsed with
  | .error e => .error e
  | .ok (st, sp) =>
      if sp < 1 then .error "step must be positive" else .ok ⟨st, stop, sp⟩

/-- The step value the constructor derives from a pattern string
(`int(match.group("interval") or 1)`); 0 when there is no match. -/
def parsedStep (s : List Char) : Int :=
  match reMatch s with
  | some (ds, _) => if ds.isEmpty then 1 else (digitsVal ds : Int)
  | none => 0

/-- The start value the constructor derives from a pattern string
(`int(match.group("offset") or 0)`); 0 when there is no match. -/
def parsedOffset (s : List Char) : Int :=
  match reMatch s with
  | some (_, some o) => (digitsVal o : Int)
  | _ => 0

/-- Modelled from the spec: a string that is entirely of the shape `Xn+Y`
(`X` a possibly empty digit run, `+Y` an optional nonempty digit offset) -
the shape the claim says is the only accepted one. -/
def specFullPattern (s : List Char) : Bool :=
  (List.range (s.length + 1)).any fun k =>
    (s.take k).all Char.isDigit &&
      (match s.drop k with
       | [c] => decide (c = 'n')
       | c :: c2 :: r2 =>
           decide (c = 'n') && decide (c2 = '+') && !r2.isEmpty && r2.all Char.isDigit
       | [] => false)

/-! ## tools.py: disjoin -/

/-- The generator expression
`next(idx2 for idx2 in reversed(range(idx)) if key(lst[idx]) != key(lst[idx2]))`:
scanning `idx - 1, …, 0`, the first position whose key differs from `target`
(`none` models the caught `StopIteration`).  The argument is the exclusive
upper bound of the scan. -/
def searchIdx2 {α β : Type} [Inhabited α] [DecidableEq β]
    (key : α → β) (L : List α) (target : β) : Nat → Option Nat
  | 0 => none
  | j+1 => if key (L.getD j default) ≠ target then some j else searchIdx2 key L target j

/-- `lst.insert(idx, lst.pop(idx2))` for `idx2 < idx`: remove the element at
`idx2` and re-insert it between the old positions `idx` and `idx + 1`. -/
def moveElem {α : Type} [Inhabited α] (L : List α) (idx2 idx : Nat) : List α :=
  (L.eraseIdx idx2).insertIdx idx (L.getD idx2 default)

/-- One iteration of the inner `for idx in reversed(range(len(lst) - 1))` body:
on a collision of adjacent keys, move the nearest earlier differing element in
between (or leave the list alone when there is none). -/
def stepAt {α β : Type} [Inhabited α] [DecidableEq β]
    (key : α → β) (L : List α) (idx : Nat) : List α :=
  if key (L.getD idx default) = key (L.getD (idx+1) default) then
    match searchIdx2 key L (key (L.getD idx default)) idx with
    | some idx2 => moveElem L idx2 idx
    | none => L
  else L

/-- The inner loop, scanning `idx` from `len(lst) - 2` down to 0 (the range is
computed once; the length never changes since each step pops and re-inserts). -/
def innerPass {α β : Type} [Inhabited α] [DecidableEq β]
    (key : α → β) (L0 : List α) : List α :=
  ((List.range (L0.length - 1)).reverse).foldl (stepAt key) L0

/-- `tools.disjoin`: lists of length ≤ 2 are returned unchanged; otherwise two
passes, each being the inner loop followed by `lst.reverse()`. -/
def disjoin {α β : Type} [Inhabited α] [DecidableEq β]
    (key : α → β) (lst : List α) : List α :=
  if lst.length ≤ 2 then lst
  else (innerPass key ((innerPass key lst).reverse)).reverse

/-! ## start.py: data model -/

/-- `model.StartTimeAllocationRequestType`. -/
inductive StartTimeAllocationRequestType
  | normal | earlyStart | lateStart | separatedFrom | groupedWith
deriving DecidableEq, Inhabited, Repr

/-- The fields of `model.Entry` the scheduler reads. -/
structure Entry where
  start_time_allocation_requests : List StartTimeAllocationRequestType
  organisation : Option Nat
deriving DecidableEq, Inhabited, Repr

/-- The fields of `model.Start` the scheduler reads (`time_offset` is the
output field, kept outside the structure as explicit state). -/
structure Start where
  entry : Entry
  competitive : Bool
deriving DecidableEq, Inhabited, Repr

/-- The fields of `model.Category` the scheduler reads: `course_id` models
`category.courses[0].course.course_id`; `vacancies_before/after` are taken as
numbers (`None` is flattened to 0, as `course_slot_counts` does);
`time_offset` is the output field, kept outside as explicit state. -/
structure Category where
  course_id : Nat
  starts : List Start
  vacancies_before : Nat
  vacancies_after : Nat
deriving DecidableEq, Inhabited, Repr

/-- The parts of `model.Race` the scheduler traverses: its categories and its
course ids. -/
structure Race where
  categories : List Category
  courses : List Nat

/-- `StartConstraints.__init__` state: `order` maps course ids to the ordered
category list (a dict in insertion order), `parallel_max`, `interval`,
`conflicts`. -/
structure StartConstraints where
  order : List (Nat × List Category)
  parallel_max : Option Nat
  interval : Int
  conflicts : List (List Nat)

/-- `_category_request_counts`: the requests of all starts of a category. -/
def categoryRequests (c : Category) : List StartTimeAllocationRequestType :=
  (c.starts.map fun s => s.entry.start_time_allocation_requests).flatten

/-- `Counter(...)[t]`. -/
def countRequests (c : Category) (t : StartTimeAllocationRequestType) : Nat :=
  (categoryRequests c).count t

/-- `_category_order_key`: `(counter[LATE] - counter[EARLY], -counter[EARLY], counter[LATE])`. -/
def category_order_key (c : Category) : Int × Int × Int :=
  ((countRequests c .lateStart : Int) - (countRequests c .earlyStart : Int),
   -(countRequests c .earlyStart : Int),
   (countRequests c .lateStart : Int))

/-- Lexicographic comparison of the sort keys, as Python compares tuples. -/
def keyLe (x y : Int × Int × Int) : Bool :=
  decide (x.1 < y.1) || (decide (x.1 = y.1) && (decide (x.2.1 < y.2.1) ||
    (decide (x.2.1 = y.2.1) && decide (x.2.2 ≤ y.2.2))))

/-- The category ordering used by `categories.sort(key=_category_order_key)`. -/
def catLe (a b : Category) : Prop :=
  keyLe (category_order_key a) (category_order_key b) = true

instance : DecidableRel catLe := fun a b => by unfold catLe; infer_instance

/-- `self.order[course_id].append(category)` on the insertion-ordered dict
(`defaultdict(list)` appends a fresh key at the end). -/
def orderAppend (o : List (Nat × List Category)) (cid : Nat) (c : Category) :
    List (Nat × List Category) :=
  match o with
  | [] => [(cid, [c])]
  | (k, cs) :: rest =>
      if k = cid then (k, cs ++ [c]) :: rest else (k, cs) :: orderAppend rest cid c

/-- `StartConstraints.add_race_courses`: append every category of the race to
its course's list, then stably sort every course's list by
`_category_order_key` (Python's sort is stable; stable insertion sort is
extensionally the same). -/
def add_race_courses (sc : StartConstraints) (race : Race) : StartConstraints :=
  let o1 := race.categories.foldl (fun o c => orderAppend o c.course_id c) sc.order
  ⟨o1.map fun p => (p.1, p.2.insertionSort catLe),
    sc.parallel_max, sc.interval, sc.conflicts⟩

/-- Dict access `self.order[course_id]` (a `defaultdict`, so a missing key
yields the empty list). -/
def lookupOrder : List (Nat × List Category) → Nat → List Category
  | [], _ => []
  | p :: rest, cid => if p.1 = cid then p.2 else lookupOrder rest cid

/-- `StartConstraints.course_slot_counts`:
`len(categories) - 1 + sum(len(starts) + vacancies_before + vacancies_after)`
per course, in dict order. -/
def course_slot_counts (sc : StartConstraints) : List (Nat × Int) :=
  sc.order.map fun p =>
    (p.1, (p.2.length : Int) - 1 +
      (p.2.map fun c =>
        ((c.starts.length : Int) + (c.vacancies_before : Int) + (c.vacancies_after : Int))).sum)

/-! ## start.py: greedy allocator -/

/-- The incremental `parallel` counter: since each course's slots are added
exactly once, `parallel[t]` equals the number of assigned courses whose
sequence contains `t`. -/
def parallelCount (slots : List (Nat × AffineSeq)) (t : Int) : Nat :=
  (slots.filter fun p => p.2.containsi t).length

/-- Dict lookup `slots[course_id]` guarded by `course_id in slots`. -/
def lookupSlots : List (Nat × AffineSeq) → Nat → Option AffineSeq
  | [], _ => none
  | p :: rest, cid => if p.1 = cid then some p.2 else lookupSlots rest cid

/-- `constraints.parallel_max and parallel[first_slot] >= constraints.parallel_max`:
by Python truthiness the check is skipped when `parallel_max` is `None` or 0. -/
def capBlocked (pm : Option Nat) (slots : List (Nat × AffineSeq)) (f : Int) : Bool :=
  match pm with
  | none => false
  | some m => if m = 0 then false else decide (m ≤ parallelCount slots f)

/-- The conflict rejection:
`any(course_id in group and any(other in slots and first_slot in slots[other]
for other in group) for group in conflicts)`. -/
def conflictBlocked (conflicts : List (List Nat)) (slots : List (Nat × AffineSeq))
    (cid : Nat) (f : Int) : Bool :=
  conflicts.any fun g =>
    g.contains cid && g.any fun other =>
      match lookupSlots slots other with
      | some s => s.containsi f
      | none => false

/-- A candidate first slot is accepted when neither `continue` fires. -/
def slotFree (sc : StartConstraints) (slots : List (Nat × AffineSeq))
    (cid : Nat) (f : Nat) : Bool :=
  !(capBlocked sc.parallel_max slots (f : Int)) &&
    !(conflictBlocked sc.conflicts slots cid (f : Int))

/-- The course loop of `generate_slots_greedily`: for each course (already in
descending slot-count order) scan `range(time_max)` for the first accepted
first slot (`KeyError` when none), construct
`AffineSeq(first_slot, first_slot + interval * count, interval)` and record it.
The `AffineSeq` constructor's `ValueError` (step < 1) also propagates. -/
def greedyGo (sc : StartConstraints) (time_max : Nat) :
    List (Nat × Int) → List (Nat × AffineSeq) → Except String (List (Nat × AffineSeq))
  | [], slots => .ok slots
  | (cid, count) :: rest, slots =>
      match (List.range time_max).find? (slotFree sc slots cid) with
      | none => .error "No free slots found"
      | some f =>
          match affineInit (.int (f : Int)) ((f : Int) + sc.interval * count) sc.interval with
          | .error e => .error e
          | .ok seq => greedyGo sc time_max rest (slots ++ [(cid, seq)])

/-- `sorted(counts.items(), key=itemgetter(1), reverse=True)`: stable descending
order by count. -/
def countGe (a b : Nat × Int) : Prop := b.2 ≤ a.2

instance : DecidableRel countGe := fun a b => by unfold countGe; infer_instance

/-- `generate_slots_greedily` (the `time_max` parameter defaults to 720 at the
call sites). -/
def generate_slots_greedily (sc : StartConstraints) (time_max : Nat) :
    Except String (List (Nat × AffineSeq)) :=
  greedyGo sc time_max ((course_slot_counts sc).insertionSort countGe) []

/-- Last term of a nonempty sequence (`next(reversed(seq))`). -/
def seqLast (s : AffineSeq) : Int := s.start + s.step * ((s.length : Int) - 1)

/-- The makespan of a greedy result: the maximum slot over all returned course
sequences (0 when every sequence is empty; all slots are nonnegative). -/
def greedyLastStart (res : List (Nat × AffineSeq)) : Int :=
  (res.filterMap fun p =>
    if p.2.length ≠ 0 then some (seqLast p.2) else none).foldl max 0

/-- A category with no starts and `c` vacancies before the start: its course
needs exactly `c` slots.  Used to build concrete scheduling instances. -/
def vcat (c : Nat) : Category := ⟨0, [], c, 0⟩

/-- Five courses needing 3, 3, 3, 2, 2 slots, cap 2, interval 1, and two
conflict groups `[1, 2]` and `[1, 3]`. -/
def cexC1 : StartConstraints :=
  ⟨[(1, [vcat 3]), (2, [vcat 3]), (3, [vcat 3]), (4, [vcat 2]), (5, [vcat 2])],
   some 2, 1, [[1, 2], [1, 3]]⟩

/-- Four courses needing 4, 3, 3, 3 slots, cap 2, interval 1, conflict groups
`[1, 2]` and `[2, 4]`. -/
def cexC2 : StartConstraints :=
  ⟨[(1, [vcat 4]), (2, [vcat 3]), (3, [vcat 3]), (4, [vcat 3])],
   some 2, 1, [[1, 2], [2, 4]]⟩

/-- A single course needing 2 slots at interval 3, no cap, no conflicts. -/
def cexC8 : StartConstraints := ⟨[(1, [vcat 2])], none, 3, []⟩

/-- Spec-modelled (NOT from the source): "sorted by net (late minus early)
start-time-allocation-request count in DESCENDING order", i.e. every earlier
category's net count is at least every later one's.  Compared against the
order the code actually produces. -/
def specNetDescending (l : List Category) : Bool :=
  decide (l.Pairwise fun a b => (category_order_key b).1 ≤ (category_order_key a).1)

/-- A category on course 7 with a single early-start request (net count -1). -/
def catE : Category := ⟨7, [⟨⟨[.earlyStart], none⟩, true⟩], 0, 0⟩

/-- A category on course 7 with a single late-start request (net count +1). -/
def catL : Category := ⟨7, [⟨⟨[.lateStart], none⟩, true⟩], 0, 0⟩

/-! ## start.py: optimal allocator, phase-1 model

`generate_slots_optimal` builds a CP-SAT model and lets the external or-tools
solver minimize `last_start` with no time limit; per the spec the solver is
exact for this phase: it raises `InfeasibleError` exactly when the model has no
solution, and otherwise fixes `last_start` to the optimum.  We embed the model
itself (variables, domains, constraints) declaratively; `interval_common_factor`
is the constant 1 of the source. -/

/-- `course_slot_counts` values in model order (course index = dict position). -/
def modelCounts (sc : StartConstraints) : List Int :=
  (course_slot_counts sc).map Prod.snd

/-- `course_ids`: dict keys in model order. -/
def modelIds (sc : StartConstraints) : List Nat :=
  (course_slot_counts sc).map Prod.fst

/-- `time_max = sum(course_slot_counts) * interval_common_factor`. -/
def modelTimeMax (sc : StartConstraints) : Int := (modelCounts sc).sum

/-- Upper bound of the per-course interval variable:
`min(interval_max, time_max // (starters - 1) if starters > 1 else time_max)
 // interval_common_factor` with `interval_max = 12`. -/
def intervalUB (tm starters : Int) : Int :=
  min 12 (if 1 < starters then tm / (starters - 1) else tm)

/-- `no_common_slots`: conflict groups translated to model indices, dropping
ids that are not courses of the model. -/
def modelGroups (sc : StartConstraints) : List (List Nat) :=
  sc.conflicts.map fun g => g.filterMap fun cid => (modelIds sc).indexOf? cid

/-- Number of starters of course `i` that the assignment puts at time `t`
(the sum of the indicator variables of course `i` at `t`). -/
def courseHits (cnt o v t : Int) : Nat :=
  ((List.range cnt.toNat).filter fun (k : Nat) => decide (o + v * (k : Int) = t)).length

/-- The `parallel[time]` expression of the model. -/
def parallelModel (sc : StartConstraints) (iv off : Nat → Int) (t : Int) : Nat :=
  ((List.range (modelCounts sc).length).map fun i =>
    courseHits ((modelCounts sc).getD i 0) (off i) (iv i) t).sum

/-- A satisfying assignment of the phase-1 model: interval and offset variables
within their declared domains, every starter's slot
`offsets[i] + intervals[i] * starter` within `[0, time_max]`, the
`AddAllDifferent` constraint per conflict group, and the `parallel` cap
(`if parallel_max is not None`, hence also for a cap of 0). -/
def Feasible (sc : StartConstraints) (iv off : Nat → Int) : Prop :=
  (∀ i, i < (modelCounts sc).length →
    sc.interval ≤ iv i ∧ iv i ≤ intervalUB (modelTimeMax sc) ((modelCounts sc).getD i 0)) ∧
  (∀ i, i < (modelCounts sc).length →
    0 ≤ off i ∧ off i ≤ modelTimeMax sc - ((modelCounts sc).getD i 0 - 1) * sc.interval) ∧
  (∀ i, i < (modelCounts sc).length → ∀ k : Int, 0 ≤ k → k < (modelCounts sc).getD i 0 →
    0 ≤ off i + iv i * k ∧ off i + iv i * k ≤ modelTimeMax sc) ∧
  (∀ g ∈ modelGroups sc, ∀ i ∈ g, ∀ j ∈ g,
    ∀ k l : Int, 0 ≤ k → k < (modelCounts sc).getD i 0 → 0 ≤ l →
      l < (modelCounts sc).getD j 0 → (i ≠ j ∨ k ≠ l) →
      off i + iv i * k ≠ off j + iv j * l) ∧
  (∀ m, sc.parallel_max = some m → ∀ t : Int, 0 ≤ t → t ≤ modelTimeMax sc →
    parallelModel sc iv off t ≤ m)

/-- The `last_start` value of an assignment:
`AddMaxEquality(last_start, (vars[-1] for vars in slot_variables if vars))`,
the maximum last slot over courses with at least one starter (the variable's
domain is `[0, time_max]`, and all slots are nonnegative, so folding from 0 is
the same maximum). -/
def lastStartOf (sc : StartConstraints) (iv off : Nat → Int) : Int :=
  ((List.range (modelCounts sc).length).filterMap fun i =>
    if 1 ≤ (modelCounts sc).getD i 0 then
      some (off i + iv i * ((modelCounts sc).getD i 0 - 1))
    else none).foldl max 0

/-- `o` is the phase-1 optimum: attained by a feasible assignment and minimal. -/
def Phase1Optimal (sc : StartConstraints) (o : Int) : Prop :=
  (∃ iv off, Feasible sc iv off ∧ lastStartOf sc iv off = o) ∧
  (∀ iv off, Feasible sc iv off → o ≤ lastStartOf sc iv off)

/-! ## start.py: slot filler

`Category.time_offset` and `Start.time_offset` are output fields written by
mutation; we model a run as returning, per category, `none` (never reached -
its `time_offset` stays the `None` that `fill_slots` first writes) or
`some (t0, assignments)` where `t0` is the category offset in minutes and
`assignments` maps start positions (index into `category.starts`) to their
`time_offset` in minutes.  `random.shuffle` is modelled by the parameter `sh`,
an arbitrary function that permutes its argument. -/

/-- The preference bucket of a start: the first `EARLY_START` or `LATE_START`
request decides (1 = early, 2 = late); otherwise 0. -/
def prefOf : List StartTimeAllocationRequestType → Nat
  | [] => 0
  | t :: rest =>
      match t with
      | .earlyStart => 1
      | .lateStart => 2
      | _ => prefOf rest

def startPref (s : Start) : Nat := prefOf s.entry.start_time_allocation_requests

/-- A category's starts paired with their position. -/
def indexedStarts (cat : Category) : List (Nat × Start) :=
  (List.range cat.starts.length).zip cat.starts

/-- `_assign_entries_randomly` up to the slot consumption: bucket by
preference, shuffle each bucket, concatenate `[early, normal, late]`, then
`disjoin(sequence, lambda start: start.entry.organisation)`. -/
def buildSequence (sh : List (Nat × Start) → List (Nat × Start))
    (starts : List (Nat × Start)) : List (Nat × Start) :=
  let b1 := starts.filter fun p => decide (startPref p.2 = 1)
  let b0 := starts.filter fun p => decide (startPref p.2 = 0)
  let b2 := starts.filter fun p => decide (startPref p.2 = 2)
  disjoin (fun p => p.2.entry.organisation) (sh b1 ++ sh b0 ++ sh b2)

/-- `for start in sequence: start.time_offset = timedelta(minutes=next(slot_iter)) - category.time_offset`;
`StopIteration` of the exhausted iterator propagates as an error. -/
def assignSeq (catOffset : Int) :
    List (Nat × Start) → List Int → Except Unit (List (Nat × Int) × List Int)
  | [], slots => .ok ([], slots)
  | _ :: _, [] => .error ()
  | p :: rest, t :: ts =>
      match assignSeq catOffset rest ts with
      | .error e => .error e
      | .ok (asg, remaining) => .ok ((p.1, t - catOffset) :: asg, remaining)

def assign_entries_randomly (sh : List (Nat × Start) → List (Nat × Start))
    (catOffset : Int) (starts : List (Nat × Start)) (slots : List Int) :
    Except Unit (List (Nat × Int) × List Int) :=
  assignSeq catOffset (buildSequence sh starts) slots

/-- `for _ in range(k): next(slots)` - vacancies consumption; `StopIteration`
is NOT caught here and propagates. -/
def consumeSlots : Nat → List Int → Except Unit (List Int)
  | 0, slots => .ok slots
  | _+1, [] => .error ()
  | k+1, _ :: ts => consumeSlots k ts

/-- One `for competitive in [True, False]` iteration: skip an empty group;
otherwise run the assignment pass, then consume one gap slot, where the
`StopIteration` IS caught and tolerated (`List.tail` of the empty list). -/
def processGroup (sh : List (Nat × Start) → List (Nat × Start)) (t0 : Int)
    (grp : List (Nat × Start)) (slots : List Int) :
    Except Unit (List (Nat × Int) × List Int) :=
  if grp.isEmpty then .ok ([], slots)
  else
    match assign_entries_randomly sh t0 grp slots with
    | .error e => .error e
    | .ok (asg, rest) => .ok (asg, rest.tail)

/-- `_fill_course_slots`: per category, peek the next slot for
`category.time_offset` (`StopIteration` breaks the loop, leaving this and all
later categories untouched), consume `vacancies_before`, process the
competitive then the non-competitive starts, consume `vacancies_after`. -/
def fillCats (sh : List (Nat × Start) → List (Nat × Start)) :
    List Category → List Int → Except Unit (List (Option (Int × List (Nat × Int))))
  | [], _ => .ok []
  | cat :: cats, slots =>
      match slots with
      | [] => .ok ((cat :: cats).map fun _ => none)
      | t0 :: _ =>
          match consumeSlots cat.vacancies_before slots with
          | .error e => .error e
          | .ok slots1 =>
              match processGroup sh t0
                  ((indexedStarts cat).filter fun p => p.2.competitive) slots1 with
              | .error e => .error e
              | .ok (asgC, slots2) =>
                  match processGroup sh t0
                      ((indexedStarts cat).filter fun p => !p.2.competitive) slots2 with
                  | .error e => .error e
                  | .ok (asgN, slots3) =>
                      match consumeSlots cat.vacancies_after slots3 with
                      | .error e => .error e
                      | .ok slots4 =>
                          match fillCats sh cats slots4 with
                          | .error e => .error e
                          | .ok restRes => .ok (some (t0, asgC ++ asgN) :: restRes)

/-- `fill_slots`: reset every category's `time_offset` to `None` (captured by
the `none` results), then `for course in race.courses:
_fill_course_slots(constraints.order[course.course_id],
start_slots.get(course.course_id, []))`.  The result pairs each course id with
the per-category outcomes for that course's order list. -/
def fillCourses (sh : List (Nat × Start) → List (Nat × Start))
    (sc : StartConstraints) (start_slots : Nat → List Int) :
    List Nat → Except Unit (List (Nat × List (Option (Int × List (Nat × Int)))))
  | [] => .ok []
  | cid :: rest =>
      match fillCats sh (lookupOrder sc.order cid) (start_slots cid) with
      | .error e => .error e
      | .ok r =>
          match fillCourses sh sc start_slots rest with
          | .error e => .error e
          | .ok rs => .ok ((cid, r) :: rs)

def fill_slots (sh : List (Nat × Start) → List (Nat × Start)) (race : Race)
    (sc : StartConstraints) (start_slots : Nat → List Int) :
    Except Unit (List (Nat × List (Option (Int × List (Nat × Int))))) :=
  fillCourses sh sc start_slots race.courses

/-- The C7 property of one category's outcome: if the category was reached
(`some`), every start position got exactly one `time_offset` (the assignment
ids are a permutation of the start positions) and the absolute slots
`category.time_offset + start.time_offset` are pairwise distinct. -/
def CatOutcomeOK (cat : Category) (out : Option (Int × List (Nat × Int))) : Prop :=
  ∀ (t0 : Int) (asg : List (Nat × Int)), out = some (t0, asg) →
    (asg.map Prod.fst).Perm (List.range cat.starts.length) ∧
    (asg.map fun q => t0 + q.2).Nodup

/-! ## Lemmas about AffineSeq -/

/-- Below `2^53` the double rounding is the identity. -/
theorem roundDouble_eq_of_small {q : Nat} (h : q < 2^53) : roundDouble q = q := by
  rw [roundDouble, if_pos h]

/-- `lcm` on positive arguments is the mathematical lcm — but only while that
lcm stays below `2^53`, where the float division is exact. -/
theorem lcm_eq_intLcm {a b : Int} (ha : 1 ≤ a) (hb : 1 ≤ b)
    (hsmall : Int.lcm a b < 2^53) :
    lcm a b = (Int.lcm a b : Int) := by
  have ha0 : a ≠ 0 := by omega
  have hb0 : b ≠ 0 := by omega
  rw [lcm, if_neg (by push_neg; exact ⟨ha0, hb0⟩)]
  have hq : (a * b).natAbs / Int.gcd a b = Int.lcm a b := by
    rw [Int.natAbs_mul]
    rfl
  rw [hq, roundDouble_eq_of_small hsmall]

theorem lcm_pos {a b : Int} (ha : 1 ≤ a) (hb : 1 ≤ b)
    (hsmall : Int.lcm a b < 2^53) : 1 ≤ lcm a b := by
  rw [lcm_eq_intLcm ha hb hsmall]
  have h2 : Int.lcm a b ≠ 0 := by
    intro h
    have hg := Int.gcd_mul_lcm a b
    rw [h, Nat.mul_zero] at hg
    have hab : a * b ≠ 0 := by positivity
    rw [eq_comm, Int.natAbs_eq_zero] at hg
    exact hab hg
  have h3 : 0 < Int.lcm a b := Nat.pos_of_ne_zero h2
  exact_mod_cast h3

theorem dvd_lcm_left' {a b : Int} (ha : 1 ≤ a) (hb : 1 ≤ b)
    (hsmall : Int.lcm a b < 2^53) : a ∣ lcm a b := by
  rw [lcm_eq_intLcm ha hb hsmall]; exact Int.dvd_lcm_left

theorem dvd_lcm_right' {a b : Int} (ha : 1 ≤ a) (hb : 1 ≤ b)
    (hsmall : Int.lcm a b < 2^53) : b ∣ lcm a b := by
  rw [lcm_eq_intLcm ha hb hsmall]; exact Int.dvd_lcm_right

theorem lcm_dvd' {a b c : Int} (ha : 1 ≤ a) (hb : 1 ≤ b)
    (hsmall : Int.lcm a b < 2^53)
    (h1 : a ∣ c) (h2 : b ∣ c) : lcm a b ∣ c := by
  rw [lcm_eq_intLcm ha hb hsmall]; exact Int.lcm_dvd h1 h2

namespace AffineSeq

theorem containsi_iff (s : AffineSeq) (x : Int) :
    s.containsi x = true ↔ s.start ≤ x ∧ x < s.stop ∧ (x - s.start) % s.step = 0 := by
  simp [containsi, and_assoc]

theorem toList_pairwise (s : AffineSeq) (hs : 1 ≤ s.step) :
    s.toList.Pairwise (· < ·) := by
  simp only [toList, List.pairwise_map]
  refine (List.pairwise_lt_range s.length).imp ?_
  intro a b hab
  have h1 : (a : Int) < b := by exact_mod_cast hab
  have := mul_lt_mul_of_pos_left h1 (show (0:Int) < s.step by omega)
  omega

theorem mem_toList (s : AffineSeq) (hs : 1 ≤ s.step) (x : Int) :
    x ∈ s.toList ↔ s.containsi x = true := by
  have hstep : (0:Int) < s.step := by omega
  rw [containsi_iff]
  simp only [toList, List.mem_map, List.mem_range]
  constructor
  · rintro ⟨k, hk, rfl⟩
    have hk' : (k : Int) < (s.stop - s.start + s.step - 1) / s.step := by
      rw [length] at hk
      exact Int.lt_toNat.mp hk
    have h1 : ((k : Int) + 1) * s.step ≤ s.stop - s.start + s.step - 1 :=
      (Int.le_ediv_iff_mul_le hstep).mp (by omega)
    have hnn : (0:Int) ≤ s.step * k := mul_nonneg (by omega) (by positivity)
    refine ⟨by omega, by nlinarith, ?_⟩
    simp [Int.add_mul_emod_self_left]
  · rintro ⟨h1, h2, h3⟩
    have hdvd : s.step ∣ x - s.start := Int.dvd_of_emod_eq_zero h3
    rcases hdvd with ⟨q, hq⟩
    have hq0 : 0 ≤ q := by nlinarith
    refine ⟨q.toNat, ?_, ?_⟩
    · rw [length]
      have hle : (q + 1) * s.step ≤ s.stop - s.start + s.step - 1 := by nlinarith
      have h5 : q + 1 ≤ (s.stop - s.start + s.step - 1) / s.step :=
        (Int.le_ediv_iff_mul_le hstep).mpr hle
      have h4 : (q.toNat : Int) = q := Int.toNat_of_nonneg hq0
      rw [Int.lt_toNat, h4]
      omega
    · have h4 : (q.toNat : Int) = q := Int.toNat_of_nonneg hq0
      rw [h4]
      omega

end AffineSeq

/-- `find?` on a strictly increasing list returns a minimal satisfying element. -/
theorem find?_min_of_sorted {α : Type} [LinearOrder α] {p : α → Bool} :
    ∀ {l : List α}, l.Pairwise (· < ·) → ∀ {r : α}, l.find? p = some r →
      ∀ {x : α}, x ∈ l → p x = true → r ≤ x := by
  intro l
  induction l with
  | nil => intro _ r h; simp at h
  | cons a t ih =>
    intro hpw r hfind x hx hpx
    rcases List.pairwise_cons.mp hpw with ⟨hat, htl⟩
    by_cases hpa : p a = true
    · rw [List.find?_cons_of_pos _ hpa] at hfind
      have h0 : r = a := by injection hfind with h0; exact h0.symm
      subst h0
      rcases List.mem_cons.mp hx with rfl | hxt
      · exact le_refl x
      · exact le_of_lt (hat x hxt)
    · rw [List.find?_cons_of_neg _ (by simpa using hpa)] at hfind
      rcases List.mem_cons.mp hx with rfl | hxt
      · exact absurd hpx hpa
      · exact ih htl hfind hxt hpx

theorem reMatch_some_iff (s : List Char) :
    (reMatch s).isSome = true ↔
      ∃ ds rest, s = ds ++ 'n' :: rest ∧ ds.all Char.isDigit = true := by
  induction s with
  | nil =>
    constructor
    · intro h
      simp [reMatch] at h
    · rintro ⟨ds, rest, h, -⟩
      have := congrArg List.length h
      simp at this
      omega
  | cons c t ih =>
    by_cases hc : c.isDigit = true
    · have e1 : (c :: t).takeWhile Char.isDigit = c :: t.takeWhile Char.isDigit :=
        List.takeWhile_cons_of_pos hc
      have e2 : (reMatch (c :: t)).isSome = (reMatch t).isSome := by
        rw [reMatch, reMatch, e1]
        simp only [List.length_cons, List.drop_succ_cons]
        rcases t.drop (t.takeWhile Char.isDigit).length with _ | ⟨c2, r⟩
        · rfl
        · dsimp only
          split_ifs with h1
          · rcases r with _ | ⟨c3, r2⟩
            · rfl
            · dsimp only
              split_ifs <;> rfl
          · rfl
      rw [e2, ih]
      constructor
      · rintro ⟨ds, rest, hsplit, hall⟩
        exact ⟨c :: ds, rest, by simp [hsplit], by simp [hall, hc]⟩
      · rintro ⟨ds, rest, hsplit, hall⟩
        rcases ds with _ | ⟨d, ds'⟩
        · simp only [List.nil_append] at hsplit
          have hcn : c = 'n' := (List.cons.injEq _ _ _ _ ▸ hsplit).1
          rw [hcn] at hc
          exact absurd hc (by decide)
        · simp only [List.cons_append, List.cons.injEq] at hsplit
          rcases hsplit with ⟨hcd, ht⟩
          simp only [List.all_cons, Bool.and_eq_true] at hall
          exact ⟨ds', rest, ht, hall.2⟩
    · have e1 : (c :: t).takeWhile Char.isDigit = [] :=
        List.takeWhile_cons_of_neg (by simp [hc])
      by_cases hcn : c = 'n'
      · subst hcn
        constructor
        · intro _
          exact ⟨[], t, rfl, rfl⟩
        · intro _
          rw [reMatch, e1]
          simp only [List.length_nil, List.drop_zero]
          split_ifs with h1
          · rcases t with _ | ⟨c2, r2⟩
            · rfl
            · dsimp only
              split_ifs <;> rfl
          · simp at h1
      · constructor
        · intro h
          rw [reMatch, e1] at h
          simp only [List.length_nil, List.drop_zero] at h
          rw [if_neg hcn] at h
          simp at h
        · rintro ⟨ds, rest, hsplit, hall⟩
          exfalso
          rcases ds with _ | ⟨d, ds'⟩
          · simp only [List.nil_append, List.cons.injEq] at hsplit
            exact hcn hsplit.1
          · simp only [List.cons_append, List.cons.injEq] at hsplit
            simp only [List.all_cons, Bool.and_eq_true] at hall
            rw [← hsplit.1] at hall
            exact hc hall.1

/-! ## C3: AffineSeq intersection -/

/-- C3 counterexample: with steps `2^53 + 1` and `1` the float division in
`lcm` rounds the true lcm `2^53 + 1` (odd, not representable as a double) to
`2^53`, so `a & b` is `AffineSeq(0, 2^54 + 4, 2^53)`: its step is not the
mathematical lcm and it contains the term `2^53`, which is not a term of `a`
— the claim's set equality and step clause both fail at this input. -/
theorem claim_C3_intersection_counterexample :
    (AffineSeq.mk 0 (2^54 + 4) (2^53 + 1)).inter (AffineSeq.mk 0 (2^54 + 4) 1) =
      AffineSeq.mk 0 (2^54 + 4) (2^53) ∧
    (Int.lcm (2^53 + 1) 1 : Int) = 2^53 + 1 ∧
    (AffineSeq.mk 0 (2^54 + 4) (2^53)).containsi (2^53) = true ∧
    (AffineSeq.mk 0 (2^54 + 4) (2^53 + 1)).containsi (2^53) = false := by
  refine ⟨by decide, by decide, by decide, by decide⟩

/-- C3 (amended): for AffineSeq values with positive steps whose mathematical
lcm is below `2^53` — where the float division `int(abs(a*b) / gcd)` is exact
— the terms of `a & b` are exactly the common terms of `a` and `b`, and the
resulting step is `lcm(a.step, b.step)`.  At or above `2^53` the division
rounds to 53-bit precision and both clauses can fail. -/
theorem claim_C3_intersection_amended (a b : AffineSeq) (x : Int)
    (ha : 1 ≤ a.step) (hb : 1 ≤ b.step)
    (hsmall : Int.lcm a.step b.step < 2^53) :
    ((a.inter b).containsi x = true ↔
      a.containsi x = true ∧ b.containsi x = true) ∧
    (a.inter b).step = lcm a.step b.step := by
  have hg0 : (Int.gcd a.step b.step : Int) ∣ a.step := Int.gcd_dvd_left
  have hg1 : (Int.gcd a.step b.step : Int) ∣ b.step := Int.gcd_dvd_right
  rw [AffineSeq.inter]
  split_ifs with hmod
  · refine ⟨?_, rfl⟩
    constructor
    · intro h
      rw [AffineSeq.containsi_iff] at h
      dsimp only at h
      omega
    · rintro ⟨hax, hbx⟩
      rw [AffineSeq.containsi_iff] at hax hbx
      exfalso
      apply hmod
      have d1 : a.step ∣ x - a.start := Int.dvd_of_emod_eq_zero hax.2.2
      have d2 : b.step ∣ x - b.start := Int.dvd_of_emod_eq_zero hbx.2.2
      have d3 : (Int.gcd a.step b.step : Int) ∣ a.start - b.start := by
        have e1 := dvd_trans hg0 d1
        have e2 := dvd_trans hg1 d2
        have := dvd_sub e2 e1
        have heq : x - b.start - (x - a.start) = a.start - b.start := by ring
        rwa [heq] at this
      exact Int.emod_eq_zero_of_dvd d3
  · rcases hfind : a.toList.find? (fun item => b.containsi item) with _ | r
    · simp only [hfind]
      refine ⟨?_, by trivial⟩
      constructor
      · intro h
        rw [AffineSeq.containsi_iff] at h
        dsimp only at h
        omega
      · rintro ⟨hax, hbx⟩
        have hx_mem : x ∈ a.toList := (AffineSeq.mem_toList a ha x).mpr hax
        have := List.find?_eq_none.mp hfind x hx_mem
        simp [hbx] at this
    · simp only [hfind]
      have hr1 : b.containsi r = true := by
        have := List.find?_some hfind
        simpa using this
      have hr2 : r ∈ a.toList := List.mem_of_find?_eq_some hfind
      have hr3 : a.containsi r = true := (AffineSeq.mem_toList a ha r).mp hr2
      rw [AffineSeq.containsi_iff] at hr1 hr3
      have hL : 1 ≤ lcm a.step b.step := lcm_pos ha hb hsmall
      have hdra : a.step ∣ r - a.start := Int.dvd_of_emod_eq_zero hr3.2.2
      have hdrb : b.step ∣ r - b.start := Int.dvd_of_emod_eq_zero hr1.2.2
      refine ⟨?_, by trivial⟩
      rw [AffineSeq.containsi_iff, AffineSeq.containsi_iff, AffineSeq.containsi_iff]
      dsimp only
      constructor
      · rintro ⟨h1, h2, h3⟩
        have hdxr : lcm a.step b.step ∣ x - r := Int.dvd_of_emod_eq_zero h3
        have hax : a.step ∣ x - a.start := by
          have e1 : a.step ∣ x - r := dvd_trans (dvd_lcm_left' ha hb hsmall) hdxr
          have := dvd_add e1 hdra
          have heq : x - r + (r - a.start) = x - a.start := by ring
          rwa [heq] at this
        have hbx : b.step ∣ x - b.start := by
          have e1 : b.step ∣ x - r := dvd_trans (dvd_lcm_right' ha hb hsmall) hdxr
          have := dvd_add e1 hdrb
          have heq : x - r + (r - b.start) = x - b.start := by ring
          rwa [heq] at this
        have hmin1 : min a.stop b.stop ≤ a.stop := min_le_left _ _
        have hmin2 : min a.stop b.stop ≤ b.stop := min_le_right _ _
        exact ⟨⟨by omega, by omega, Int.emod_eq_zero_of_dvd hax⟩,
          ⟨by omega, by omega, Int.emod_eq_zero_of_dvd hbx⟩⟩
      · rintro ⟨⟨ha1, ha2, ha3⟩, ⟨hb1, hb2, hb3⟩⟩
        have hx_mem : x ∈ a.toList := (AffineSeq.mem_toList a ha x).mpr
          ((AffineSeq.containsi_iff a x).mpr ⟨ha1, ha2, ha3⟩)
        have hrle : r ≤ x := find?_min_of_sorted (AffineSeq.toList_pairwise a ha)
          hfind hx_mem ((AffineSeq.containsi_iff b x).mpr ⟨hb1, hb2, hb3⟩)
        have dxa : a.step ∣ x - a.start := Int.dvd_of_emod_eq_zero ha3
        have dxb : b.step ∣ x - b.start := Int.dvd_of_emod_eq_zero hb3
        have dxr1 : a.step ∣ x - r := by
          have := dvd_sub dxa hdra
          have heq : x - a.start - (r - a.start) = x - r := by ring
          rwa [heq] at this
        have dxr2 : b.step ∣ x - r := by
          have := dvd_sub dxb hdrb
          have heq : x - b.start - (r - b.start) = x - r := by ring
          rwa [heq] at this
        have : lcm a.step b.step ∣ x - r := lcm_dvd' ha hb hsmall dxr1 dxr2
        exact ⟨hrle, lt_min ha2 hb2, Int.emod_eq_zero_of_dvd this⟩

/-! ## C9: AffineSeq construction errors -/

/-- C9 counterexample: the claim says a string not entirely of the shape
`Xn+Y` is rejected, but `"2n+3x"` is accepted (start 3, stop 10, step 2),
because `re.match` anchors only at the beginning of the string. -/
theorem claim_C9_construction_counterexample :
    specFullPattern ('2' :: 'n' :: '+' :: '3' :: 'x' :: []) = false ∧
    affineInit (.str ('2' :: 'n' :: '+' :: '3' :: 'x' :: [])) 10 1 =
      Except.ok ⟨3, 10, 2⟩ := by
  exact ⟨rfl, rfl⟩

/-- C9 (amended): construction on a string argument succeeds exactly when the
string BEGINS with a digit run followed by `n` (trailing characters are
ignored) and the derived step is positive; on success the step is the digit
run's value (default 1) and the start is the offset group's value (default 0).
An int first argument succeeds exactly when the step argument is ≥ 1. -/
theorem claim_C9_construction_amended (s : List Char) (stop step : Int) :
    ((∃ q, affineInit (.str s) stop step = Except.ok q) ↔
      ((∃ ds rest, s = ds ++ 'n' :: rest ∧ ds.all Char.isDigit = true) ∧
        1 ≤ parsedStep s)) ∧
    (∀ q, affineInit (.str s) stop step = Except.ok q →
      q = ⟨parsedOffset s, stop, parsedStep s⟩) ∧
    (∀ i : Int, (∃ q, affineInit (.int i) stop step = Except.ok q) ↔ 1 ≤ step) := by
  have hint : ∀ i : Int,
      (∃ q, affineInit (.int i) stop step = Except.ok q) ↔ 1 ≤ step := by
    intro i
    simp only [affineInit]
    split_ifs with h
    · exact iff_of_false (by rintro ⟨q, hq⟩; simp at hq) (by omega)
    · exact iff_of_true ⟨⟨i, stop, step⟩, rfl⟩ (by omega)
  rcases hm : reMatch s with _ | ⟨ds, os⟩
  · have hno : ¬ ∃ ds rest, s = ds ++ 'n' :: rest ∧ ds.all Char.isDigit = true := by
      rw [← reMatch_some_iff]
      simp [hm]
    refine ⟨?_, ?_, hint⟩
    · apply iff_of_false
      · rintro ⟨q, hq⟩
        simp only [affineInit, hm] at hq
        simp at hq
      · rintro ⟨hex, -⟩
        exact hno hex
    · intro q hq
      simp only [affineInit, hm] at hq
      simp at hq
  · have hsome : ∃ dsx rest, s = dsx ++ 'n' :: rest ∧ dsx.all Char.isDigit = true := by
      rw [← reMatch_some_iff]
      simp [hm]
    have hps : parsedStep s = if ds.isEmpty then (1:Int) else (digitsVal ds : Int) := by
      simp only [parsedStep, hm]
    have haff : affineInit (.str s) stop step =
        (if (if ds.isEmpty then (1:Int) else (digitsVal ds : Int)) < 1
         then Except.error "step must be positive"
         else Except.ok ⟨parsedOffset s, stop,
           if ds.isEmpty then (1:Int) else (digitsVal ds : Int)⟩) := by
      rcases os with _ | o
      · simp only [affineInit, hm, parsedOffset]
      · simp only [affineInit, hm, parsedOffset]
    by_cases hsp : (if ds.isEmpty then (1:Int) else (digitsVal ds : Int)) < 1
    · refine ⟨?_, ?_, hint⟩
      · apply iff_of_false
        · rintro ⟨q, hq⟩
          rw [haff, if_pos hsp] at hq
          exact Except.noConfusion hq
        · rintro ⟨-, hstep1⟩
          rw [hps] at hstep1
          omega
      · intro q hq
        rw [haff, if_pos hsp] at hq
        exact Except.noConfusion hq
    · refine ⟨?_, ?_, hint⟩
      · apply iff_of_true
        · exact ⟨⟨parsedOffset s, stop,
            if ds.isEmpty then (1:Int) else (digitsVal ds : Int)⟩,
            by rw [haff, if_neg hsp]⟩
        · exact ⟨hsome, by rw [hps]; omega⟩
      · intro q hq
        rw [haff, if_neg hsp] at hq
        injection hq with hq2
        rw [← hq2, hps]

/-- Witness for C9 (amended) at the concrete pattern string `"n"`. -/
theorem claim_C9_construction_amended_witness :
    ((∃ q, affineInit (.str ('n' :: [])) 5 7 = Except.ok q) ↔
      ((∃ ds rest, ('n' :: []) = ds ++ 'n' :: rest ∧ ds.all Char.isDigit = true) ∧
        1 ≤ parsedStep ('n' :: []))) ∧
    (∀ q, affineInit (.str ('n' :: [])) 5 7 = Except.ok q →
      q = ⟨parsedOffset ('n' :: []), 5, parsedStep ('n' :: [])⟩) ∧
    (∀ i : Int, (∃ q, affineInit (.int i) 5 7 = Except.ok q) ↔ (1:Int) ≤ 7) :=
  claim_C9_construction_amended ('n' :: []) 5 7

/-! ## disjoin: permutation invariant -/

theorem searchIdx2_some_lt {α β : Type} [Inhabited α] [DecidableEq β]
    {key : α → β} {L : List α} {target : β} :
    ∀ {k j : Nat}, searchIdx2 key L target k = some j → j < k := by
  intro k
  induction k with
  | zero => intro j h; simp [searchIdx2] at h
  | succ k ih =>
    intro j h
    rw [searchIdx2] at h
    split_ifs at h with hne
    · injection h with h; omega
    · exact Nat.lt_trans (ih h) (Nat.lt_succ_self k)

theorem perm_eraseIdx {α : Type} [Inhabited α] :
    ∀ (L : List α) (i : Nat), i < L.length → L.Perm (L.getD i default :: L.eraseIdx i) := by
  intro L
  induction L with
  | nil => intro i h; simp at h
  | cons a t ih =>
    intro i h
    rcases i with _ | i
    · simp
    · have h' : i < t.length := by simpa using h
      have step1 : (a :: t).Perm (a :: (t.getD i default :: t.eraseIdx i)) :=
        List.Perm.cons a (ih i h')
      refine step1.trans ?_
      have : (a :: t.getD i default :: t.eraseIdx i).Perm
          (t.getD i default :: a :: t.eraseIdx i) := List.Perm.swap _ _ _
      simpa using this

theorem moveElem_perm {α : Type} [Inhabited α] (L : List α) (idx2 idx : Nat)
    (h2 : idx2 < L.length) (h : idx ≤ L.length - 1) :
    (moveElem L idx2 idx).Perm L := by
  have hlen : (L.eraseIdx idx2).length = L.length - 1 := by
    rw [List.length_eraseIdx]
    simp [h2]
  have h1 : (List.insertIdx idx (L.getD idx2 default) (L.eraseIdx idx2)).Perm
      (L.getD idx2 default :: L.eraseIdx idx2) :=
    List.perm_insertIdx _ _ (by omega)
  exact h1.trans (perm_eraseIdx L idx2 h2).symm

theorem length_stepAt {α β : Type} [Inhabited α] [DecidableEq β]
    (key : α → β) (L : List α) (idx : Nat) (h : idx + 1 < L.length) :
    (stepAt key L idx).length = L.length := by
  rw [stepAt]
  split_ifs with hcol
  · rcases hs : searchIdx2 key L (key (L.getD idx default)) idx with _ | j
    · rfl
    · have hj : j < idx := searchIdx2_some_lt hs
      have hjL : j < L.length := by omega
      have hle : (L.eraseIdx j).length = L.length - 1 := by
        rw [List.length_eraseIdx]
        simp [hjL]
      simp only [moveElem]
      rw [List.length_insertIdx _ _ (by omega), hle]
      omega
  · rfl

theorem stepAt_perm {α β : Type} [Inhabited α] [DecidableEq β]
    (key : α → β) (L : List α) (idx : Nat) (h : idx + 1 < L.length) :
    (stepAt key L idx).Perm L := by
  rw [stepAt]
  split_ifs with hcol
  · rcases hs : searchIdx2 key L (key (L.getD idx default)) idx with _ | j
    · exact List.Perm.refl L
    · have hj : j < idx := searchIdx2_some_lt hs
      exact moveElem_perm L j idx (by omega) (by omega)
  · exact List.Perm.refl L

theorem foldl_stepAt_perm {α β : Type} [Inhabited α] [DecidableEq β]
    (key : α → β) :
    ∀ (idxs : List Nat) (L : List α), (∀ idx ∈ idxs, idx + 1 < L.length) →
      (idxs.foldl (stepAt key) L).Perm L := by
  intro idxs
  induction idxs with
  | nil => intro L _; exact List.Perm.refl L
  | cons idx rest ih =>
    intro L hb
    have h1 : idx + 1 < L.length := hb idx (List.mem_cons_self _ _)
    have hlen : (stepAt key L idx).length = L.length := length_stepAt key L idx h1
    have h2 : ∀ j ∈ rest, j + 1 < (stepAt key L idx).length := by
      intro j hj
      rw [hlen]
      exact hb j (List.mem_cons_of_mem _ hj)
    exact (ih (stepAt key L idx) h2).trans (stepAt_perm key L idx h1)

theorem innerPass_perm {α β : Type} [Inhabited α] [DecidableEq β]
    (key : α → β) (L0 : List α) : (innerPass key L0).Perm L0 := by
  rw [innerPass]
  apply foldl_stepAt_perm
  intro idx hidx
  rw [List.mem_reverse, List.mem_range] at hidx
  omega

/-- `disjoin` permutes the list in place. -/
theorem disjoin_perm {α β : Type} [Inhabited α] [DecidableEq β]
    (key : α → β) (lst : List α) : (disjoin key lst).Perm lst := by
  rw [disjoin]
  split_ifs with hlen
  · exact List.Perm.refl lst
  · have p1 := (innerPass key ((innerPass key lst).reverse)).reverse_perm
    have p2 := innerPass_perm key ((innerPass key lst).reverse)
    have p3 := (innerPass key lst).reverse_perm
    have p4 := innerPass_perm key lst
    exact p1.trans (p2.trans (p3.trans p4))

/-! ## C10: disjoin is an in-place permutation -/

/-- C10: for every list and key function, `disjoin` returns a permutation of
its input (no element lost, duplicated or created, and the length is
preserved); being a total function of the embedding, it raises for no input. -/
theorem claim_C10_disjoin_permutes {α β : Type} [Inhabited α] [DecidableEq β]
    (key : α → β) (lst : List α) :
    (disjoin key lst).Perm lst ∧ (disjoin key lst).length = lst.length :=
  ⟨disjoin_perm key lst, (disjoin_perm key lst).length_eq⟩

/-- Witness for C10 on a concrete list. -/
theorem claim_C10_disjoin_permutes_witness :
    (disjoin (fun n : Nat => n % 2) [1, 2, 3, 4]).Perm [1, 2, 3, 4] ∧
    (disjoin (fun n : Nat => n % 2) [1, 2, 3, 4]).length = [1, 2, 3, 4].length :=
  claim_C10_disjoin_permutes (fun n : Nat => n % 2) [1, 2, 3, 4]

/-! ## Greedy allocator: shared lemmas -/

/-- A nonempty sequence with positive step contains its own start. -/
theorem AffineSeq.containsi_start_self (s : AffineSeq) (hstep : 1 ≤ s.step)
    (hne : s.length ≠ 0) : s.containsi s.start = true := by
  rw [AffineSeq.containsi_iff]
  refine ⟨le_refl _, ?_, by simp⟩
  rw [AffineSeq.length] at hne
  have h1 : 0 < (s.stop - s.start + s.step - 1) / s.step := by
    rcases Nat.eq_zero_or_pos ((s.stop - s.start + s.step - 1) / s.step).toNat with h | h
    · exact absurd h hne
    · exact_mod_cast Int.lt_toNat.mp h
  have h2 : 1 * s.step ≤ s.stop - s.start + s.step - 1 :=
    (Int.le_ediv_iff_mul_le (by omega)).mp (by omega)
  omega

/-- `AffineSeq(int, stop, step)` succeeds iff the step is positive, returning
the literal triple. -/
theorem affineInit_int_ok {a b c : Int} {q : AffineSeq}
    (h : affineInit (.int a) b c = .ok q) : q = ⟨a, b, c⟩ ∧ 1 ≤ c := by
  by_cases h1 : c < 1
  · simp only [affineInit] at h
    rw [if_pos h1] at h
    exact absurd h (by simp)
  · simp only [affineInit] at h
    rw [if_neg h1] at h
    injection h with h2
    exact ⟨h2.symm, by omega⟩

theorem lookupSlots_eq_some :
    ∀ {slots : List (Nat × AffineSeq)}, (slots.map Prod.fst).Nodup →
      ∀ {c : Nat} {s : AffineSeq}, (c, s) ∈ slots → lookupSlots slots c = some s := by
  intro slots
  induction slots with
  | nil => intro _ c s h; simp at h
  | cons p rest ih =>
    intro hnd c s hmem
    rw [List.map_cons, List.nodup_cons] at hnd
    rw [lookupSlots]
    rcases List.mem_cons.mp hmem with rfl | hmem'
    · simp
    · have hne : p.1 ≠ c := by
        intro h
        exact hnd.1 (h ▸ List.mem_map_of_mem Prod.fst hmem')
      rw [if_neg hne]
      exact ih hnd.2 hmem'

/-- What a successful `find?` over `range` gives: the found index satisfies the
predicate, lies below the bound, and is minimal. -/
theorem find?_range_min {p : Nat → Bool} {tm f : Nat}
    (h : (List.range tm).find? p = some f) :
    p f = true ∧ f < tm ∧ ∀ j, j < f → p j = false := by
  have h1 := List.find?_some h
  have h2 := List.mem_of_find?_eq_some h
  rw [List.mem_range] at h2
  refine ⟨h1, h2, ?_⟩
  intro j hj
  by_contra hc
  have hpj : p j = true := by
    revert hc; cases p j <;> simp
  have := find?_min_of_sorted (List.pairwise_lt_range tm) h
    (List.mem_range.mpr (by omega)) hpj
  omega

/-- The per-pair conflict property the greedy search establishes: the later
course's accepted first slot is not contained in the earlier course's
sequence. -/
def conflictOk (conflicts : List (List Nat)) (p q : Nat × AffineSeq) : Prop :=
  ∀ g ∈ conflicts, p.1 ∈ g → q.1 ∈ g → p.2.containsi q.2.start = false

theorem conflictBlocked_false_elim {conflicts : List (List Nat)}
    {slots : List (Nat × AffineSeq)} {cid : Nat} {f : Int}
    (h : conflictBlocked conflicts slots cid f = false)
    {g : List Nat} (hg : g ∈ conflicts) (hcid : cid ∈ g)
    {other : Nat} (hother : other ∈ g)
    {s : AffineSeq} (hs : lookupSlots slots other = some s) :
    s.containsi f = false := by
  rw [conflictBlocked, List.any_eq_false] at h
  have h1 := h g hg
  rw [Bool.and_eq_true, not_and] at h1
  have h2 := h1 (List.elem_eq_true_of_mem hcid)
  rw [List.any_eq_true] at h2
  push_neg at h2
  have h3 := h2 other hother
  rw [hs] at h3
  simp only [] at h3
  revert h3
  cases hc : s.containsi f <;> simp

theorem pairwise_or_of_mem {α : Type} {R : α → α → Prop} :
    ∀ {l : List α}, l.Pairwise R → ∀ {a b : α}, a ∈ l → b ∈ l →
      a = b ∨ R a b ∨ R b a := by
  intro l
  induction l with
  | nil => intro _ a b h; simp at h
  | cons x t ih =>
    intro hpw a b ha hb
    rcases List.pairwise_cons.mp hpw with ⟨hx, ht⟩
    rcases List.mem_cons.mp ha with rfl | ha'
    · rcases List.mem_cons.mp hb with rfl | hb'
      · exact Or.inl rfl
      · exact Or.inr (Or.inl (hx b hb'))
    · rcases List.mem_cons.mp hb with rfl | hb'
      · exact Or.inr (Or.inr (hx a ha'))
      · exact ih ht ha' hb'

/-- Invariant run of the greedy course loop: conflict groups never reuse an
earlier member's occupied slot as a later member's first slot, and every
recorded sequence has a positive step. -/
theorem greedyGo_conflict (sc : StartConstraints) (tm : Nat) :
    ∀ (todo : List (Nat × Int)) (slots res : List (Nat × AffineSeq)),
      greedyGo sc tm todo slots = .ok res →
      (slots.map Prod.fst ++ todo.map Prod.fst).Nodup →
      List.Pairwise (conflictOk sc.conflicts) slots →
      (∀ p ∈ slots, 1 ≤ p.2.step) →
      List.Pairwise (conflictOk sc.conflicts) res ∧ ∀ p ∈ res, 1 ≤ p.2.step := by
  intro todo
  induction todo with
  | nil =>
    intro slots res hok hnd hpw hst
    simp only [greedyGo] at hok
    injection hok with h
    subst h
    exact ⟨hpw, hst⟩
  | cons ct rest ih =>
    rcases ct with ⟨cid, count⟩
    intro slots res hok hnd hpw hst
    rw [greedyGo] at hok
    rcases hfind : (List.range tm).find? (slotFree sc slots cid) with _ | f
    · rw [hfind] at hok
      exact Except.noConfusion hok
    · rw [hfind] at hok
      dsimp only at hok
      rcases haff : affineInit (.int (f : Int)) ((f : Int) + sc.interval * count)
          sc.interval with e | seq
      · rw [haff] at hok
        exact Except.noConfusion hok
      · rw [haff] at hok
        dsimp only at hok
        obtain ⟨hseq, hstep⟩ := affineInit_int_ok haff
        obtain ⟨hfree, hflt, hmin⟩ := find?_range_min hfind
        rw [slotFree, Bool.and_eq_true] at hfree
        have hcap : capBlocked sc.parallel_max slots (f : Int) = false := by
          have := hfree.1; revert this
          cases capBlocked sc.parallel_max slots (f : Int) <;> simp
        have hconf : conflictBlocked sc.conflicts slots cid (f : Int) = false := by
          have := hfree.2; revert this
          cases conflictBlocked sc.conflicts slots cid (f : Int) <;> simp
        have hnd_slots : (slots.map Prod.fst).Nodup := (List.nodup_append.mp hnd).1
        have hkeys : ((slots ++ [(cid, seq)]).map Prod.fst ++ rest.map Prod.fst) =
            (slots.map Prod.fst ++ (cid :: rest.map Prod.fst)) := by
          simp
        have hnd' : ((slots ++ [(cid, seq)]).map Prod.fst ++ rest.map Prod.fst).Nodup := by
          rw [hkeys]
          simpa using hnd
        have hpw' : List.Pairwise (conflictOk sc.conflicts) (slots ++ [(cid, seq)]) := by
          rw [List.pairwise_append]
          refine ⟨hpw, by simp, ?_⟩
          intro p hp q hq
          have hq' : q = (cid, seq) := by simpa using hq
          subst hq'
          intro g hg hpg hcidg
          have hl : lookupSlots slots p.1 = some p.2 :=
            lookupSlots_eq_some hnd_slots (by simpa using hp)
          have := conflictBlocked_false_elim hconf hg hcidg hpg hl
          rw [hseq]
          simpa using this
        have hst' : ∀ p ∈ slots ++ [(cid, seq)], 1 ≤ p.2.step := by
          intro p hp
          rcases List.mem_append.mp hp with h | h
          · exact hst p h
          · have : p = (cid, seq) := by simpa using h
            subst this
            rw [hseq]
            exact hstep
        exact ih (slots ++ [(cid, seq)]) res hok hnd' hpw' hst'

/-! ## Greedy occupancy bound without conflicts -/

theorem parallelCount_append (slots : List (Nat × AffineSeq)) (x : Nat × AffineSeq)
    (t : Int) :
    parallelCount (slots ++ [x]) t =
      parallelCount slots t + (if x.2.containsi t then 1 else 0) := by
  rw [parallelCount, parallelCount, List.filter_append, List.length_append]
  congr 1
  cases hx : x.2.containsi t <;> simp [hx]

theorem capBlocked_false_lt {m : Nat} {slots : List (Nat × AffineSeq)} {f : Int}
    (hm : m ≠ 0) (h : capBlocked (some m) slots f = false) :
    parallelCount slots f < m := by
  rw [capBlocked, if_neg hm] at h
  simp only [decide_eq_false_iff_not, not_le] at h
  exact h

theorem capBlocked_true_le {m : Nat} {slots : List (Nat × AffineSeq)} {f : Int}
    (h : capBlocked (some m) slots f = true) : m ≤ parallelCount slots f := by
  rw [capBlocked] at h
  by_cases h0 : m = 0
  · rw [if_pos h0] at h
    exact absurd h (by simp)
  · rw [if_neg h0] at h
    simpa using h

theorem slotFree_no_conflicts {sc : StartConstraints} {slots : List (Nat × AffineSeq)}
    {cid f : Nat} (hconf : sc.conflicts = []) :
    slotFree sc slots cid f = !capBlocked sc.parallel_max slots (f : Int) := by
  rw [slotFree, conflictBlocked, hconf]
  simp

/-- The occupancy invariant maintained by the greedy loop when there are no
conflict groups: the per-slot occupancy never exceeds the cap, and along each
residue class modulo the interval (from slot 0 on) it is non-increasing. -/
def CapInv (m : Nat) (itv : Int) (slots : List (Nat × AffineSeq)) : Prop :=
  (∀ t : Int, parallelCount slots t ≤ m) ∧
  (∀ t u : Int, 0 ≤ t → t ≤ u → (u - t) % itv = 0 →
    parallelCount slots u ≤ parallelCount slots t)

theorem capInv_append {m : Nat} {sc : StartConstraints}
    {slots : List (Nat × AffineSeq)} {cid f : Nat} {count : Int}
    (hpm : sc.parallel_max = some m) (hm : m ≠ 0) (hconf : sc.conflicts = [])
    (hinv : CapInv m sc.interval slots)
    (hfree : slotFree sc slots cid f = true)
    (hmin : ∀ j : Nat, j < f → slotFree sc slots cid j = false)
    (hstep : 1 ≤ sc.interval) :
    CapInv m sc.interval
      (slots ++ [(cid, AffineSeq.mk (f : Int) ((f : Int) + sc.interval * count) sc.interval)]) := by
  set seq : AffineSeq := AffineSeq.mk (f : Int) ((f : Int) + sc.interval * count) sc.interval
  have hmem : ∀ u : Int, seq.containsi u = true ↔
      (f : Int) ≤ u ∧ u < (f : Int) + sc.interval * count ∧ (u - f) % sc.interval = 0 := by
    intro u
    rw [AffineSeq.containsi_iff]
  have hcnt_f : parallelCount slots (f : Int) < m := by
    rw [slotFree_no_conflicts hconf, hpm] at hfree
    refine capBlocked_false_lt hm ?_
    revert hfree
    cases capBlocked (some m) slots (f : Int) <;> simp
  have hblocked : ∀ j : Nat, j < f → m ≤ parallelCount slots (j : Int) := by
    intro j hj
    have := hmin j hj
    rw [slotFree_no_conflicts hconf, hpm] at this
    refine capBlocked_true_le ?_
    revert this
    cases capBlocked (some m) slots (j : Int) <;> simp
  have hmono := hinv.2
  have hboundall := hinv.1
  have hle_f : ∀ u : Int, seq.containsi u = true → parallelCount slots u ≤ parallelCount slots (f : Int) := by
    intro u hu
    rw [hmem] at hu
    exact hmono (f : Int) u (by positivity) hu.1 hu.2.2
  constructor
  · intro t
    rw [parallelCount_append]
    rcases hct0 : seq.containsi t with _ | _
    · have := hboundall t
      norm_num
      omega
    · have := hle_f t hct0
      norm_num
      omega
  · intro t u ht htu hdvd
    rw [parallelCount_append, parallelCount_append]
    rcases hcu0 : seq.containsi u with _ | _
    · rcases hct0 : seq.containsi t with _ | _
      · have := hmono t u ht htu hdvd
        norm_num
        omega
      · have := hmono t u ht htu hdvd
        norm_num
        omega
    · have hcu := (hmem u).mp hcu0
      rcases hct0 : seq.containsi t with _ | _
      · -- u is a slot of the new course but t (same residue class, earlier)
        -- is not: then t lies strictly before the accepted first slot, where
        -- the occupancy has already reached the cap.
        have hdvd_tf : (t - (f : Int)) % sc.interval = 0 := by
          have d1 : sc.interval ∣ u - t := Int.dvd_of_emod_eq_zero hdvd
          have d2 : sc.interval ∣ u - (f : Int) := Int.dvd_of_emod_eq_zero hcu.2.2
          have d3 : sc.interval ∣ t - (f : Int) := by
            have := dvd_sub d2 d1
            have heq : u - (f : Int) - (u - t) = t - (f : Int) := by ring
            rwa [heq] at this
          exact Int.emod_eq_zero_of_dvd d3
        have htf : t < (f : Int) := by
          by_contra hge
          push_neg at hge
          have h1 : seq.containsi t = true :=
            (hmem t).mpr ⟨hge, by omega, hdvd_tf⟩
          rw [hct0] at h1
          exact Bool.noConfusion h1
        have hblk : m ≤ parallelCount slots t := by
          have h1 : (t.toNat : Int) = t := Int.toNat_of_nonneg ht
          have h2 : t.toNat < f := by omega
          have := hblocked t.toNat h2
          rwa [h1] at this
        have hcu_le : parallelCount slots u ≤ parallelCount slots (f : Int) :=
          hmono (f : Int) u (by positivity) hcu.1 hcu.2.2
        norm_num
        omega
      · have := hmono t u ht htu hdvd
        norm_num
        omega

theorem greedyGo_cap {sc : StartConstraints} {tm : Nat} {m : Nat}
    (hpm : sc.parallel_max = some m) (hm : m ≠ 0) (hconf : sc.conflicts = []) :
    ∀ (todo : List (Nat × Int)) (slots res : List (Nat × AffineSeq)),
      greedyGo sc tm todo slots = .ok res →
      CapInv m sc.interval slots → CapInv m sc.interval res := by
  intro todo
  induction todo with
  | nil =>
    intro slots res hok hinv
    simp only [greedyGo] at hok
    injection hok with h
    subst h
    exact hinv
  | cons ct rest ih =>
    rcases ct with ⟨cid, count⟩
    intro slots res hok hinv
    rw [greedyGo] at hok
    rcases hfind : (List.range tm).find? (slotFree sc slots cid) with _ | f
    · rw [hfind] at hok
      exact Except.noConfusion hok
    · rw [hfind] at hok
      dsimp only at hok
      rcases haff : affineInit (.int (f : Int)) ((f : Int) + sc.interval * count)
          sc.interval with e | seq
      · rw [haff] at hok
        exact Except.noConfusion hok
      · rw [haff] at hok
        dsimp only at hok
        obtain ⟨hseq, hstep⟩ := affineInit_int_ok haff
        obtain ⟨hfree, hflt, hmin⟩ := find?_range_min hfind
        have hmin' : ∀ j : Nat, j < f → slotFree sc slots cid j = false := hmin
        subst hseq
        exact ih _ res hok (capInv_append hpm hm hconf hinv hfree hmin' hstep)

/-- With no conflict groups and a positive cap, the greedy result never
exceeds the cap at any minute. -/
theorem greedy_cap_of_no_conflicts {sc : StartConstraints} {tm : Nat}
    {res : List (Nat × AffineSeq)} {m : Nat}
    (hconf : sc.conflicts = []) (hpm : sc.parallel_max = some m) (hm : m ≠ 0)
    (hok : generate_slots_greedily sc tm = .ok res) :
    ∀ t : Int, parallelCount res t ≤ m := by
  rw [generate_slots_greedily] at hok
  have hbase : CapInv m sc.interval [] := by
    constructor
    · intro t
      simp [parallelCount]
    · intro t u _ _ _
      simp [parallelCount]
  exact (greedyGo_cap hpm hm hconf _ [] res hok hbase).1

/-! ## List helpers for relating the greedy result to the CP model -/

theorem getD_mem_of_lt {α : Type} {l : List α} {i : Nat} (h : i < l.length) (d : α) :
    l.getD i d ∈ l := by
  rw [List.getD_eq_getElem?_getD, List.getElem?_eq_getElem h]
  simpa using List.getElem_mem h

theorem getD_map_of_lt {α β : Type} {f : α → β} {l : List α} {i : Nat}
    (h : i < l.length) (d : β) (d' : α) :
    (l.map f).getD i d = f (l.getD i d') := by
  rw [List.getD_eq_getElem?_getD, List.getD_eq_getElem?_getD, List.getElem?_map,
    List.getElem?_eq_getElem h]
  rfl

theorem map_range_getD {α β : Type} (g : α → β) (d : α) (l : List α) :
    (List.range l.length).map (fun i => g (l.getD i d)) = l.map g := by
  induction l with
  | nil => rfl
  | cons a t ih =>
    rw [List.length_cons, List.range_succ_eq_map, List.map_cons, List.map_map]
    congr 1

theorem lookupSlots_mem :
    ∀ {l : List (Nat × AffineSeq)} {c : Nat} {s : AffineSeq},
      lookupSlots l c = some s → (c, s) ∈ l := by
  intro l
  induction l with
  | nil => intro c s h; simp [lookupSlots] at h
  | cons p rest ih =>
    intro c s h
    rw [lookupSlots] at h
    split_ifs at h with h1
    · injection h with h2
      subst h2
      rw [← h1]
      simp
    · exact List.mem_cons_of_mem _ (ih h)

theorem forall₂_mem_left {α β : Type} {R : α → β → Prop} :
    ∀ {l1 : List α} {l2 : List β}, List.Forall₂ R l1 l2 →
      ∀ {a : α}, a ∈ l1 → ∃ b ∈ l2, R a b := by
  intro l1 l2 h
  induction h with
  | nil => intro a ha; simp at ha
  | cons hab htail ih =>
    intro a ha
    rcases List.mem_cons.mp ha with rfl | ha'
    · exact ⟨_, List.mem_cons_self _ _, hab⟩
    · rcases ih ha' with ⟨b, hb, hR⟩
      exact ⟨b, List.mem_cons_of_mem _ hb, hR⟩

theorem forall₂_mem_right {α β : Type} {R : α → β → Prop} :
    ∀ {l1 : List α} {l2 : List β}, List.Forall₂ R l1 l2 →
      ∀ {b : β}, b ∈ l2 → ∃ a ∈ l1, R a b := by
  intro l1 l2 h
  induction h with
  | nil => intro b hb; simp at hb
  | cons hab htail ih =>
    intro b hb
    rcases List.mem_cons.mp hb with rfl | hb'
    · exact ⟨_, List.mem_cons_self _ _, hab⟩
    · rcases ih hb' with ⟨a, ha, hR⟩
      exact ⟨a, List.mem_cons_of_mem _ ha, hR⟩

theorem forall₂_fst_eq {R : (Nat × Int) → (Nat × AffineSeq) → Prop}
    (hR : ∀ p q, R p q → q.1 = p.1) :
    ∀ {l1 : List (Nat × Int)} {l2 : List (Nat × AffineSeq)},
      List.Forall₂ R l1 l2 → l2.map Prod.fst = l1.map Prod.fst := by
  intro l1 l2 h
  induction h with
  | nil => rfl
  | cons hab htail ih =>
    rw [List.map_cons, List.map_cons, ih, hR _ _ hab]

theorem sum_map_ind {α : Type} (p : α → Bool) :
    ∀ l : List α, (l.map fun x => if p x then 1 else 0).sum = l.countP p := by
  intro l
  induction l with
  | nil => rfl
  | cons a t ih =>
    rw [List.map_cons, List.sum_cons, ih, List.countP_cons]
    rcases h : p a with _ | _ <;> simp [h] <;> omega

theorem filterMap_eq_map_of_some {α β : Type} {f : α → Option β} {g : α → β} :
    ∀ {l : List α}, (∀ x ∈ l, f x = some (g x)) → l.filterMap f = l.map g := by
  intro l
  induction l with
  | nil => intro _; rfl
  | cons a t ih =>
    intro h
    rw [List.filterMap_cons, h a (List.mem_cons_self _ _), List.map_cons,
      ih fun x hx => h x (List.mem_cons_of_mem _ hx)]

theorem foldl_max_le_iff :
    ∀ (l : List Int) (a c : Int), l.foldl max a ≤ c ↔ a ≤ c ∧ ∀ x ∈ l, x ≤ c := by
  intro l
  induction l with
  | nil => intro a c; simp
  | cons x t ih =>
    intro a c
    rw [List.foldl_cons, ih]
    simp only [List.mem_cons, max_le_iff]
    constructor
    · rintro ⟨⟨h1, h2⟩, h3⟩
      exact ⟨h1, fun y hy => by rcases hy with rfl | hy; exact h2; exact h3 y hy⟩
    · rintro ⟨h1, h2⟩
      exact ⟨⟨h1, h2 x (Or.inl rfl)⟩, fun y hy => h2 y (Or.inr hy)⟩

theorem foldl_max_perm {l1 l2 : List Int} (h : l1.Perm l2) (a : Int) :
    l1.foldl max a = l2.foldl max a := by
  apply le_antisymm
  · rw [foldl_max_le_iff]
    obtain ⟨h1, h2⟩ := (foldl_max_le_iff l2 a _).mp (le_refl _)
    exact ⟨h1, fun x hx => h2 x (h.mem_iff.mp hx)⟩
  · rw [foldl_max_le_iff]
    obtain ⟨h1, h2⟩ := (foldl_max_le_iff l1 a _).mp (le_refl _)
    exact ⟨h1, fun x hx => h2 x (h.mem_iff.mpr hx)⟩

/-- The structure of the greedy output: one entry per course of the input
list, in order, each an `AffineSeq(first, first + interval * count, interval)`
for some accepted nonnegative first slot. -/
theorem greedyGo_shape (sc : StartConstraints) (tm : Nat) :
    ∀ (todo : List (Nat × Int)) (slots res : List (Nat × AffineSeq)),
      greedyGo sc tm todo slots = .ok res →
      ∃ news, res = slots ++ news ∧
        List.Forall₂ (fun (p : Nat × Int) (q : Nat × AffineSeq) =>
          q.1 = p.1 ∧ 1 ≤ sc.interval ∧ ∃ f : Nat,
            q.2 = AffineSeq.mk (f : Int) ((f : Int) + sc.interval * p.2) sc.interval)
          todo news := by
  intro todo
  induction todo with
  | nil =>
    intro slots res hok
    simp only [greedyGo] at hok
    injection hok with h
    subst h
    exact ⟨[], by simp, List.Forall₂.nil⟩
  | cons ct rest ih =>
    rcases ct with ⟨cid, count⟩
    intro slots res hok
    rw [greedyGo] at hok
    rcases hfind : (List.range tm).find? (slotFree sc slots cid) with _ | f
    · rw [hfind] at hok
      exact Except.noConfusion hok
    · rw [hfind] at hok
      dsimp only at hok
      rcases haff : affineInit (.int (f : Int)) ((f : Int) + sc.interval * count)
          sc.interval with e | seq
      · rw [haff] at hok
        exact Except.noConfusion hok
      · rw [haff] at hok
        dsimp only at hok
        obtain ⟨hseq, hstep⟩ := affineInit_int_ok haff
        obtain ⟨news, hres, hfa⟩ := ih (slots ++ [(cid, seq)]) res hok
        refine ⟨(cid, seq) :: news, ?_, ?_⟩
        · rw [hres, List.append_assoc]
          rfl
        · exact List.Forall₂.cons ⟨rfl, hstep, f, hseq⟩ hfa

/-- The length of `AffineSeq(f, f + itv * cnt, itv)` is `cnt` (clamped at 0)
for a positive interval. -/
theorem affine_block_length {f itv cnt : Int} (hitv : 1 ≤ itv) :
    (AffineSeq.mk f (f + itv * cnt) itv).length = cnt.toNat := by
  rw [AffineSeq.length]
  dsimp only
  have h1 : f + itv * cnt - f + itv - 1 = itv - 1 + itv * cnt := by ring
  rw [h1, Int.add_mul_ediv_left _ _ (by omega : itv ≠ 0),
    Int.ediv_eq_zero_of_lt (by omega) (by omega)]
  omega

/-- `courseHits` is the indicator of membership in the corresponding block. -/
theorem courseHits_eq {cnt f itv t : Int} (hitv : 1 ≤ itv) :
    courseHits cnt f itv t =
      if (AffineSeq.mk f (f + itv * cnt) itv).containsi t = true then 1 else 0 := by
  rcases hc : (AffineSeq.mk f (f + itv * cnt) itv).containsi t with _ | _
  · rw [if_neg (by simp)]
    rw [courseHits]
    have : ((List.range cnt.toNat).filter fun (k : Nat) => decide (f + itv * (k : Int) = t)) = [] := by
      rw [List.filter_eq_nil_iff]
      intro k hk
      rw [List.mem_range] at hk
      simp only [decide_eq_true_eq]
      intro he
      have hkc : (k : Int) < cnt := Int.lt_toNat.mp hk
      have hmem : (AffineSeq.mk f (f + itv * cnt) itv).containsi t = true := by
        rw [AffineSeq.containsi_iff]
        dsimp only
        refine ⟨by nlinarith [mul_nonneg (by omega : (0:Int) ≤ itv) (by positivity : (0:Int) ≤ (k:Int))], ?_, ?_⟩
        · have := mul_lt_mul_of_pos_left hkc (by omega : (0:Int) < itv)
          omega
        · rw [← he]
          simp [Int.add_mul_emod_self_left]
      rw [hc] at hmem
      exact Bool.noConfusion hmem
    rw [this]
    rfl
  · rw [if_pos rfl]
    rw [AffineSeq.containsi_iff] at hc
    dsimp only at hc
    obtain ⟨h1, h2, h3⟩ := hc
    obtain ⟨k0, hk0⟩ := Int.dvd_of_emod_eq_zero h3
    have hk00 : 0 ≤ k0 := by nlinarith
    have hk0cnt : k0 < cnt := by nlinarith
    rw [courseHits]
    have hpred : ∀ k ∈ List.range cnt.toNat,
        (decide (f + itv * (k : Int) = t)) = (decide (k = k0.toNat)) := by
      intro k hk
      rw [decide_eq_decide]
      have hcast : (k0.toNat : Int) = k0 := Int.toNat_of_nonneg hk00
      constructor
      · intro he
        have : itv * (k : Int) = itv * k0 := by omega
        have hkk : (k : Int) = k0 := by
          have := mul_left_cancel₀ (by omega : itv ≠ 0) this
          exact this
        omega
      · intro he
        subst he
        rw [hcast] at *
        omega
    rw [List.filter_congr hpred, List.filter_eq, List.length_replicate,
      List.count_eq_one_of_mem (List.nodup_range _) (List.mem_range.mpr (by omega))]

theorem forall₂_map_eq {α β γ : Type} {R : α → β → Prop} {H : α → γ} {K : β → γ} :
    ∀ {l1 : List α} {l2 : List β}, List.Forall₂ R l1 l2 →
      (∀ p q, R p q → H p = K q) → l1.map H = l2.map K := by
  intro l1 l2 h
  induction h with
  | nil => intro _; rfl
  | cons hab htail ih =>
    intro hpt
    rw [List.map_cons, List.map_cons, hpt _ _ hab, ih hpt]

theorem forall₂_mem_enrich {α β : Type} {R : α → β → Prop} :
    ∀ {l1 : List α} {l2 : List β}, List.Forall₂ R l1 l2 →
      List.Forall₂ (fun a b => R a b ∧ a ∈ l1 ∧ b ∈ l2) l1 l2 := by
  intro l1 l2 h
  induction h with
  | nil => exact List.Forall₂.nil
  | cons hab htail ih =>
    refine List.Forall₂.cons ⟨hab, List.mem_cons_self _ _, List.mem_cons_self _ _⟩ ?_
    exact ih.imp fun a b hh => ⟨hh.1, List.mem_cons_of_mem _ hh.2.1, List.mem_cons_of_mem _ hh.2.2⟩

theorem seqLast_block {f itv cnt : Int} (hitv : 1 ≤ itv) (hcnt : 0 ≤ cnt) :
    seqLast (AffineSeq.mk f (f + itv * cnt) itv) = f + itv * (cnt - 1) := by
  rw [seqLast, affine_block_length hitv]
  dsimp only
  rw [Int.toNat_of_nonneg hcnt]

/-! ## C1: greedy allocator and the parallel cap -/

/-- C1 (code bug evidence): on `cexC1` the greedy allocator returns a slot map
in which minute 3 is occupied by the three courses 2, 3 and 5, exceeding the
cap `parallel_max = 2`; the code checks the occupancy only at the candidate
first slot, not at every slot the course will occupy. -/
theorem claim_C1_greedy_cap_exceeded :
    (generate_slots_greedily cexC1 20).toOption =
      some [(1, AffineSeq.mk 0 3 1), (2, AffineSeq.mk 3 6 1), (3, AffineSeq.mk 3 6 1),
        (4, AffineSeq.mk 0 2 1), (5, AffineSeq.mk 2 4 1)] ∧
    cexC1.parallel_max = some 2 ∧
    parallelCount [(1, AffineSeq.mk 0 3 1), (2, AffineSeq.mk 3 6 1), (3, AffineSeq.mk 3 6 1),
      (4, AffineSeq.mk 0 2 1), (5, AffineSeq.mk 2 4 1)] 3 = 3 := by
  refine ⟨by decide, rfl, by decide⟩

/-! ## C2: conflict groups -/

/-- C2 counterexample: on `cexC2` the greedy allocator gives course 2 the
slots `{4, 5, 6}` and course 4 the slots `{3, 4, 5}` although both belong to
the conflict group `[2, 4]`: the sequences share the slots 4 and 5.  Only the
candidate first slot is checked against the group's occupied slots. -/
theorem claim_C2_conflict_counterexample :
    (generate_slots_greedily cexC2 20).toOption =
      some [(1, AffineSeq.mk 0 4 1), (2, AffineSeq.mk 4 7 1), (3, AffineSeq.mk 0 3 1),
        (4, AffineSeq.mk 3 6 1)] ∧
    [2, 4] ∈ cexC2.conflicts ∧
    (AffineSeq.mk 4 7 1).containsi 4 = true ∧
    (AffineSeq.mk 3 6 1).containsi 4 = true := by
  refine ⟨by decide, by decide, by decide, by decide⟩

/-- C2 (amended): within a conflict group the greedy allocator keeps the FIRST
slots pairwise distinct (for courses with nonempty sequences); the full
sequences may still overlap, as `claim_C2_conflict_counterexample` shows. -/
theorem claim_C2_conflict_amended (sc : StartConstraints) (tm : Nat)
    (res : List (Nat × AffineSeq))
    (hnodup : ((course_slot_counts sc).map Prod.fst).Nodup)
    (hok : generate_slots_greedily sc tm = .ok res)
    (g : List Nat) (hg : g ∈ sc.conflicts) (c d : Nat)
    (hc : c ∈ g) (hd : d ∈ g) (hcd : c ≠ d)
    (s1 s2 : AffineSeq) (hm1 : (c, s1) ∈ res) (hm2 : (d, s2) ∈ res)
    (hne1 : s1.length ≠ 0) (hne2 : s2.length ≠ 0) :
    s1.start ≠ s2.start := by
  rw [generate_slots_greedily] at hok
  have hkeys : (([] : List (Nat × AffineSeq)).map Prod.fst ++
      ((course_slot_counts sc).insertionSort countGe).map Prod.fst).Nodup := by
    simp only [List.map_nil, List.nil_append]
    exact (((List.perm_insertionSort countGe (course_slot_counts sc)).map
      Prod.fst).nodup_iff).mpr hnodup
  obtain ⟨hpw, hst⟩ := greedyGo_conflict sc tm _ [] res hok hkeys
    List.Pairwise.nil (by intro p hp; simp at hp)
  have hdistinct : (c, s1) ≠ (d, s2) := by
    intro h
    injection h with h1 h2
    exact hcd h1
  intro hstart
  rcases pairwise_or_of_mem hpw hm1 hm2 with heq | hR | hR
  · exact hdistinct heq
  · have h1 := hR g hg hc hd
    have h2 := AffineSeq.containsi_start_self s1 (hst (c, s1) hm1) hne1
    rw [← hstart] at h1
    simp only at h1
    rw [h1] at h2
    exact Bool.noConfusion h2
  · have h1 := hR g hg hd hc
    have h2 := AffineSeq.containsi_start_self s2 (hst (d, s2) hm2) hne2
    rw [hstart] at h1
    simp only at h1
    rw [h1] at h2
    exact Bool.noConfusion h2

/-- Witness for C2 (amended): two conflicting one-slot courses get the
distinct first slots 0 and 1. -/
theorem claim_C2_conflict_amended_witness :
    (AffineSeq.mk 0 1 1).start ≠ (AffineSeq.mk 1 2 1).start :=
  claim_C2_conflict_amended ⟨[(1, [vcat 1]), (2, [vcat 1])], none, 1, [[1, 2]]⟩ 5
    [(1, AffineSeq.mk 0 1 1), (2, AffineSeq.mk 1 2 1)]
    (by decide) rfl [1, 2] (by decide) 1 2
    (by decide) (by decide) (by decide)
    (AffineSeq.mk 0 1 1) (AffineSeq.mk 1 2 1) (by decide) (by decide)
    (by decide) (by decide)

/-! ## C4: category order after add_race_courses -/

theorem keyLe_total (x y : Int × Int × Int) : keyLe x y = true ∨ keyLe y x = true := by
  unfold keyLe
  simp only [Bool.or_eq_true, Bool.and_eq_true, decide_eq_true_eq]
  omega

theorem keyLe_trans (x y z : Int × Int × Int) (hxy : keyLe x y = true)
    (hyz : keyLe y z = true) : keyLe x z = true := by
  unfold keyLe at *
  simp only [Bool.or_eq_true, Bool.and_eq_true, decide_eq_true_eq] at *
  omega

instance : IsTotal Category catLe :=
  ⟨fun a b => keyLe_total (category_order_key a) (category_order_key b)⟩

instance : IsTrans Category catLe :=
  ⟨fun a b c => keyLe_trans (category_order_key a) (category_order_key b)
    (category_order_key c)⟩

theorem lookupOrder_map_sort (o : List (Nat × List Category)) (cid : Nat) :
    lookupOrder (o.map fun p => (p.1, p.2.insertionSort catLe)) cid =
      (lookupOrder o cid).insertionSort catLe := by
  induction o with
  | nil => rfl
  | cons p rest ih =>
    rw [List.map_cons]
    by_cases h : p.1 = cid
    · simp only [lookupOrder, if_pos h]
    · simp only [lookupOrder, if_neg h]
      exact ih

/-- C4 counterexample: the code sorts each course list by the key
`(late-early, -early, late)` in ASCENDING order.  Inserting a late-skewed
category (net +1) before an early-skewed one (net -1) on course 7 yields the
list `[early-skewed, late-skewed]`, whose net counts are ascending, not
descending as the claim says. -/
theorem claim_C4_order_counterexample :
    lookupOrder (add_race_courses ⟨[], none, 1, []⟩ ⟨[catL, catE], [7]⟩).order 7 =
      [catE, catL] ∧
    specNetDescending (catE :: catL :: []) = false := by
  constructor
  · decide
  · decide

/-- C4 (amended): after `add_race_courses`, every course's stored category
list is sorted ASCENDING by the key `(late-early, -early, late)` — so
late-skewed categories appear later, matching the claim's tie-breakers but
not its word "descending" — and is a permutation of the categories
accumulated for that course (the prior entries plus the race's categories
with that course id, in insertion order). -/
theorem claim_C4_order_amended (sc : StartConstraints) (race : Race) (cid : Nat) :
    (lookupOrder (add_race_courses sc race).order cid).Sorted catLe ∧
    (lookupOrder (add_race_courses sc race).order cid).Perm
      (lookupOrder
        (race.categories.foldl (fun o c => orderAppend o c.course_id c) sc.order)
        cid) := by
  have hord : (add_race_courses sc race).order =
      (race.categories.foldl (fun o c => orderAppend o c.course_id c)
        sc.order).map fun p => (p.1, p.2.insertionSort catLe) := rfl
  rw [hord, lookupOrder_map_sort]
  exact ⟨List.sorted_insertionSort catLe _, List.perm_insertionSort catLe _⟩

/-! ## C5: slot exhaustion in the slot filler -/

theorem assignSeq_error_iff (t0 : Int) (seq : List (Nat × Start)) (slots : List Int) :
    assignSeq t0 seq slots = .error () ↔ slots.length < seq.length := by
  induction seq generalizing slots with
  | nil => simp [assignSeq]
  | cons p rest ih =>
    cases slots with
    | nil => simp [assignSeq]
    | cons t ts =>
      rw [assignSeq]
      split
      · rename_i e h
        cases e
        simp only [List.length_cons]
        constructor
        · intro _
          exact Nat.succ_lt_succ ((ih ts).mp h)
        · intro _
          trivial
      · rename_i asg rem h
        simp only [List.length_cons]
        constructor
        · intro hc
          exact Except.noConfusion hc
        · intro hlt
          have h2 := (ih ts).mpr (Nat.lt_of_succ_lt_succ hlt)
          rw [h] at h2
          exact Except.noConfusion h2

theorem consumeSlots_error_iff (k : Nat) (slots : List Int) :
    consumeSlots k slots = .error () ↔ slots.length < k := by
  induction k generalizing slots with
  | zero => simp [consumeSlots]
  | succ n ih =>
    cases slots with
    | nil => simp [consumeSlots]
    | cons t ts =>
      rw [consumeSlots]
      rw [ih ts]
      simp only [List.length_cons]
      omega

theorem processGroup_error_iff (sh : List (Nat × Start) → List (Nat × Start))
    (t0 : Int) (grp : List (Nat × Start)) (slots : List Int) :
    processGroup sh t0 grp slots = .error () ↔
      grp.isEmpty = false ∧ assignSeq t0 (buildSequence sh grp) slots = .error () := by
  rw [processGroup]
  by_cases h : grp.isEmpty
  · rw [if_pos h, h]
    constructor
    · intro hc
      exact Except.noConfusion hc
    · rintro ⟨hc, -⟩
      exact Bool.noConfusion hc
  · rw [if_neg h]
    rw [Bool.not_eq_true] at h
    rw [assign_entries_randomly]
    split
    · rename_i e heq
      cases e
      exact ⟨fun _ => ⟨h, heq⟩, fun _ => rfl⟩
    · rename_i asg rem heq
      constructor
      · intro hc
        exact Except.noConfusion hc
      · rintro ⟨-, hc⟩
        rw [heq] at hc
        exact Except.noConfusion hc

theorem fillCats_nil_ok (sh : List (Nat × Start) → List (Nat × Start))
    (cats : List Category) :
    fillCats sh cats [] = .ok (cats.map fun _ => none) := by
  cases cats <;> rfl

theorem fillCats_vacancy_error (sh : List (Nat × Start) → List (Nat × Start))
    (cat : Category) (cats : List Category) (t0 : Int) (ts : List Int)
    (h : consumeSlots cat.vacancies_before (t0 :: ts) = .error ()) :
    fillCats sh (cat :: cats) (t0 :: ts) = .error () := by
  rw [fillCats, h]

/-- C5 counterexample: running out of slots while skipping `vacancies_after`
raises (`next(slots)` is NOT wrapped in try there), contradicting the claim
that trailing-vacancy exhaustion is tolerated; the same instance with no
trailing vacancies returns normally, the gap exhaustion being caught. -/
theorem claim_C5_vacancy_counterexample :
    fillCats (fun l => l)
      (Category.mk 0 [Start.mk (Entry.mk [] none) true] 0 1 :: []) (0 :: []) =
      .error () ∧
    fillCats (fun l => l)
      (Category.mk 0 [Start.mk (Entry.mk [] none) true] 0 0 :: []) (0 :: []) =
      .ok [some (0, [(0, 0)])] := by
  constructor
  · rfl
  · rfl

/-- C5 (amended): in `_fill_course_slots`, only the initial peek of a
category (which breaks the loop, leaving the remaining categories
unassigned) and the one-slot inter-category gap after an assignment pass are
tolerated when the slots run out; running out while assigning a category's
actual starters raises (`assignSeq` errors exactly when the sequence is
longer than the remaining slots), and — contrary to the claim — so does
running out while skipping `vacancies_before` or `vacancies_after`
(`consumeSlots` errors exactly when fewer slots remain than vacancies), the
error propagating out of `_fill_course_slots`. -/
theorem claim_C5_exhaustion_amended :
    (∀ (sh : List (Nat × Start) → List (Nat × Start)) (t0 : Int)
        (grp : List (Nat × Start)) (slots : List Int),
      processGroup sh t0 grp slots = .error () ↔
        grp.isEmpty = false ∧
          assignSeq t0 (buildSequence sh grp) slots = .error ()) ∧
    (∀ (t0 : Int) (seq : List (Nat × Start)) (slots : List Int),
      assignSeq t0 seq slots = .error () ↔ slots.length < seq.length) ∧
    (∀ (k : Nat) (slots : List Int),
      consumeSlots k slots = .error () ↔ slots.length < k) ∧
    (∀ (sh : List (Nat × Start) → List (Nat × Start)) (cats : List Category),
      fillCats sh cats [] = .ok (cats.map fun _ => none)) ∧
    (∀ (sh : List (Nat × Start) → List (Nat × Start)) (cat : Category)
        (cats : List Category) (t0 : Int) (ts : List Int),
      consumeSlots cat.vacancies_before (t0 :: ts) = .error () →
      fillCats sh (cat :: cats) (t0 :: ts) = .error ()) :=
  ⟨processGroup_error_iff, assignSeq_error_iff, consumeSlots_error_iff,
   fillCats_nil_ok, fillCats_vacancy_error⟩

/-- Witness for C5 (amended): a category with two leading vacancies and a
single remaining slot makes the whole fill raise. -/
theorem claim_C5_exhaustion_amended_witness :
    fillCats (fun l => l) (Category.mk 0 [] 2 0 :: []) (5 :: []) = .error () :=
  claim_C5_exhaustion_amended.2.2.2.2 (fun l => l) (Category.mk 0 [] 2 0) [] 5 []
    (by rfl)

/-! ## C7: the slot filler assigns every start a distinct absolute slot -/

theorem consumeSlots_ok (k : Nat) (slots rem : List Int)
    (h : consumeSlots k slots = .ok rem) : rem = slots.drop k := by
  induction k generalizing slots with
  | zero =>
    rw [consumeSlots] at h
    injection h with h
    rw [← h, List.drop_zero]
  | succ n ih =>
    cases slots with
    | nil =>
      rw [consumeSlots] at h
      exact Except.noConfusion h
    | cons t ts =>
      rw [consumeSlots] at h
      rw [List.drop_succ_cons]
      exact ih ts h

theorem assignSeq_ok (t0 : Int) (seq : List (Nat × Start)) (slots : List Int)
    (asg : List (Nat × Int)) (rem : List Int)
    (h : assignSeq t0 seq slots = .ok (asg, rem)) :
    asg.map Prod.fst = seq.map Prod.fst ∧
    asg.map (fun q => t0 + q.2) = slots.take seq.length ∧
    rem = slots.drop seq.length := by
  induction seq generalizing slots asg rem with
  | nil =>
    rw [assignSeq] at h
    simp only [Except.ok.injEq, Prod.mk.injEq] at h
    obtain ⟨h1, h2⟩ := h
    subst h1
    subst h2
    simp
  | cons p rest ih =>
    cases slots with
    | nil =>
      rw [assignSeq] at h
      exact Except.noConfusion h
    | cons t ts =>
      rw [assignSeq] at h
      split at h
      · exact Except.noConfusion h
      · rename_i asg2 rem2 heq
        simp only [Except.ok.injEq, Prod.mk.injEq] at h
        obtain ⟨h1, h2⟩ := h
        subst h1
        subst h2
        obtain ⟨ih1, ih2, ih3⟩ := ih ts asg2 rem2 heq
        refine ⟨?_, ?_, ?_⟩
        · simp only [List.map_cons, ih1]
        · simp only [List.map_cons, List.length_cons, List.take_succ_cons, ih2]
          congr 1
          omega
        · simp only [List.length_cons, List.drop_succ_cons, ih3]

theorem prefOf_cases (l : List StartTimeAllocationRequestType) :
    prefOf l = 0 ∨ prefOf l = 1 ∨ prefOf l = 2 := by
  induction l with
  | nil => exact Or.inl rfl
  | cons t rest ih =>
    cases t with
    | earlyStart => exact Or.inr (Or.inl rfl)
    | lateStart => exact Or.inr (Or.inr rfl)
    | normal => exact ih
    | separatedFrom => exact ih
    | groupedWith => exact ih

theorem buildSequence_perm (sh : List (Nat × Start) → List (Nat × Start))
    (hsh : ∀ l, (sh l).Perm l) (grp : List (Nat × Start)) :
    (buildSequence sh grp).Perm grp := by
  rw [buildSequence]
  refine (disjoin_perm _ _).trans ?_
  refine (((hsh _).append (hsh _)).append (hsh _)).trans ?_
  have h2 := List.filter_append_perm (fun p : Nat × Start => decide (startPref p.2 = 1)) grp
  have h3 := List.filter_append_perm (fun p : Nat × Start => decide (startPref p.2 = 0))
    (grp.filter fun p => !decide (startPref p.2 = 1))
  have e1 : (grp.filter fun p => !decide (startPref p.2 = 1)).filter
      (fun p => decide (startPref p.2 = 0)) =
      grp.filter fun p => decide (startPref p.2 = 0) := by
    rw [List.filter_filter]
    refine List.filter_congr ?_
    intro a _
    rcases prefOf_cases a.2.entry.start_time_allocation_requests with h | h | h <;>
      simp [startPref, prefOf, h]
  have e2 : (grp.filter fun p => !decide (startPref p.2 = 1)).filter
      (fun p => !decide (startPref p.2 = 0)) =
      grp.filter fun p => decide (startPref p.2 = 2) := by
    rw [List.filter_filter]
    refine List.filter_congr ?_
    intro a _
    rcases prefOf_cases a.2.entry.start_time_allocation_requests with h | h | h <;>
      simp [startPref, prefOf, h]
  have h4 : ((grp.filter fun p => decide (startPref p.2 = 0)) ++
      (grp.filter fun p => decide (startPref p.2 = 2))).Perm
      (grp.filter fun p => !decide (startPref p.2 = 1)) := by
    rw [← e1, ← e2]
    exact h3
  rw [List.append_assoc]
  exact (List.Perm.append_left _ h4).trans h2

theorem processGroup_ok (sh : List (Nat × Start) → List (Nat × Start))
    (hsh : ∀ l, (sh l).Perm l) (t0 : Int) (grp : List (Nat × Start))
    (slots : List Int) (asg : List (Nat × Int)) (rem : List Int)
    (h : processGroup sh t0 grp slots = .ok (asg, rem)) :
    (asg.map Prod.fst).Perm (grp.map Prod.fst) ∧
    ∃ n : Nat, asg.map (fun q => t0 + q.2) = slots.take n ∧
      List.Sublist rem (slots.drop n) := by
  rw [processGroup] at h
  by_cases hge : grp.isEmpty
  · rw [if_pos hge] at h
    simp only [Except.ok.injEq, Prod.mk.injEq] at h
    obtain ⟨h1, h2⟩ := h
    subst h1
    subst h2
    have hg : grp = [] := List.isEmpty_iff.mp hge
    subst hg
    exact ⟨List.Perm.refl _, 0, by simp, by simp⟩
  · rw [if_neg hge] at h
    rw [assign_entries_randomly] at h
    split at h
    · exact Except.noConfusion h
    · rename_i asg2 rest heq
      simp only [Except.ok.injEq, Prod.mk.injEq] at h
      obtain ⟨h1, h2⟩ := h
      subst h1
      subst h2
      obtain ⟨e1, e2, e3⟩ := assignSeq_ok t0 (buildSequence sh grp) slots asg2 rest heq
      refine ⟨?_, (buildSequence sh grp).length, e2, ?_⟩
      · rw [e1]
        exact (buildSequence_perm sh hsh grp).map Prod.fst
      · rw [e3]
        exact List.tail_sublist _

theorem catOutcome_none (cats : List Category) :
    List.Forall₂ CatOutcomeOK cats (cats.map fun _ => none) := by
  induction cats with
  | nil => exact List.Forall₂.nil
  | cons c cs ih => exact List.Forall₂.cons (fun t0 asg hc => Option.noConfusion hc) ih

theorem fillCats_sound (sh : List (Nat × Start) → List (Nat × Start))
    (hsh : ∀ l, (sh l).Perm l) :
    ∀ (cats : List Category) (slots : List Int), slots.Pairwise (· < ·) →
      ∀ outs, fillCats sh cats slots = .ok outs →
        List.Forall₂ CatOutcomeOK cats outs := by
  intro cats
  induction cats with
  | nil =>
    intro slots hp outs h
    rw [fillCats] at h
    injection h with h
    subst h
    exact List.Forall₂.nil
  | cons cat cats ih =>
    intro slots hp outs h
    cases slots with
    | nil =>
      rw [fillCats] at h
      injection h with h
      subst h
      exact catOutcome_none (cat :: cats)
    | cons t0 ts =>
      rw [fillCats] at h
      split at h
      · exact Except.noConfusion h
      · rename_i slots1 hc1
        split at h
        · exact Except.noConfusion h
        · rename_i asgC slots2 hpc
          split at h
          · exact Except.noConfusion h
          · rename_i asgN slots3 hpn
            split at h
            · exact Except.noConfusion h
            · rename_i slots4 hc2
              split at h
              · exact Except.noConfusion h
              · rename_i restRes hrec
                injection h with h
                subst h
                have hs1 : slots1 = (t0 :: ts).drop cat.vacancies_before :=
                  consumeSlots_ok _ _ _ hc1
                have hp1 : slots1.Pairwise (· < ·) := by
                  rw [hs1]
                  exact hp.sublist (List.drop_sublist _ _)
                obtain ⟨hidC, n1, habsC, hremC⟩ := processGroup_ok sh hsh t0 _ _ _ _ hpc
                obtain ⟨hidN, n2, habsN, hremN⟩ := processGroup_ok sh hsh t0 _ _ _ _ hpn
                have hsub2 : List.Sublist slots2 slots1 :=
                  hremC.trans (List.drop_sublist _ _)
                have hsub3 : List.Sublist slots3 slots2 :=
                  hremN.trans (List.drop_sublist _ _)
                have hs4 : slots4 = slots3.drop cat.vacancies_after :=
                  consumeSlots_ok _ _ _ hc2
                have hp4 : slots4.Pairwise (· < ·) := by
                  rw [hs4]
                  exact (hp1.sublist (hsub3.trans hsub2)).sublist (List.drop_sublist _ _)
                refine List.Forall₂.cons ?_ (ih slots4 hp4 restRes hrec)
                intro t asg heq
                injection heq with heq
                injection heq with heq1 heq2
                subst heq1
                subst heq2
                constructor
                · -- assignment ids are a permutation of the start positions
                  rw [List.map_append]
                  refine (hidC.append hidN).trans ?_
                  rw [← List.map_append]
                  have hpf : (((indexedStarts cat).filter fun p => p.2.competitive) ++
                      ((indexedStarts cat).filter fun p => !p.2.competitive)).Perm
                      (indexedStarts cat) :=
                    List.filter_append_perm (fun p => p.2.competitive) (indexedStarts cat)
                  refine (hpf.map Prod.fst).trans ?_
                  rw [indexedStarts, List.map_fst_zip]
                  rw [List.length_range]
                · -- absolute slots are pairwise distinct
                  rw [List.map_append, habsC, habsN]
                  have h5 : List.Sublist (slots2.take n2) (slots1.drop n1) :=
                    (List.take_sublist _ _).trans hremC
                  have h6 := h5.append_left (slots1.take n1)
                  rw [List.take_append_drop] at h6
                  exact ((hp1.sublist h6).imp fun hab => ne_of_lt hab)

theorem fillCourses_sound (sh : List (Nat × Start) → List (Nat × Start))
    (hsh : ∀ l, (sh l).Perm l) (sc : StartConstraints) (start_slots : Nat → List Int)
    (hinc : ∀ cid, (start_slots cid).Pairwise (· < ·)) :
    ∀ (courses : List Nat) res, fillCourses sh sc start_slots courses = .ok res →
      ∀ pr ∈ res, List.Forall₂ CatOutcomeOK (lookupOrder sc.order pr.1) pr.2 := by
  intro courses
  induction courses with
  | nil =>
    intro res h pr hpr
    rw [fillCourses] at h
    injection h with h
    subst h
    exact absurd hpr (List.not_mem_nil pr)
  | cons cid rest ih =>
    intro res h pr hpr
    rw [fillCourses] at h
    split at h
    · exact Except.noConfusion h
    · rename_i r hfc
      split at h
      · exact Except.noConfusion h
      · rename_i rs hrest
        injection h with h
        subst h
        rcases List.mem_cons.mp hpr with he | hm
        · subst he
          exact fillCats_sound sh hsh _ _ (hinc cid) r hfc
        · exact ih rs hrest pr hm

/-- C7: after a `fill_slots` run that returns without raising, for every
course in the result and every category of that course that was reached
(its outcome is `some`), every start position received exactly one
`time_offset` (the assignment ids are a permutation of `range
starts.length`) and the absolute slots `category.time_offset +
start.time_offset` are pairwise distinct — provided the shuffle permutes its
argument and each course's slot list is strictly increasing (as the
AffineSeq-generated slots are). -/
theorem claim_C7_fill_assignments (sh : List (Nat × Start) → List (Nat × Start))
    (hsh : ∀ l, (sh l).Perm l) (race : Race) (sc : StartConstraints)
    (start_slots : Nat → List Int)
    (hinc : ∀ cid, (start_slots cid).Pairwise (· < ·))
    (res : List (Nat × List (Option (Int × List (Nat × Int)))))
    (hok : fill_slots sh race sc start_slots = .ok res) :
    ∀ pr ∈ res,
      List.Forall₂ (fun cat out => ∀ (t0 : Int) (asg : List (Nat × Int)),
          out = some (t0, asg) →
          (asg.map Prod.fst).Perm (List.range cat.starts.length) ∧
          (asg.map fun q => t0 + q.2).Nodup)
        (lookupOrder sc.order pr.1) pr.2 := by
  intro pr hpr
  exact (fillCourses_sound sh hsh sc start_slots hinc race.courses res hok pr hpr).imp
    fun a b hab => hab

/-- Witness for C7 at a one-course, one-category, one-start instance. -/
theorem claim_C7_fill_assignments_witness :
    List.Forall₂ (fun (cat : Category) out => ∀ (t0 : Int) (asg : List (Nat × Int)),
        out = some (t0, asg) →
        (asg.map Prod.fst).Perm (List.range cat.starts.length) ∧
        (asg.map fun q => t0 + q.2).Nodup)
      (lookupOrder (StartConstraints.mk
        [(1, [Category.mk 1 [Start.mk (Entry.mk [] none) true] 0 0])]
        none 1 []).order 1) [some ((0 : Int), [((0 : Nat), (0 : Int))])] :=
  claim_C7_fill_assignments (fun l => l) (fun l => List.Perm.refl l)
    (Race.mk [] [1])
    (StartConstraints.mk [(1, [Category.mk 1 [Start.mk (Entry.mk [] none) true] 0 0])]
      none 1 [])
    (fun _ => [0, 5])
    (fun _ => (by decide : ([0, 5] : List Int).Pairwise (· < ·)))
    [((1 : Nat), [some ((0 : Int), [((0 : Nat), (0 : Int))])])] rfl
    ((1 : Nat), [some ((0 : Int), [((0 : Nat), (0 : Int))])])
    (List.mem_cons_self _ _)

/-! ## C8: greedy versus the optimal model -/

/-- C8 counterexample: a single course with 2 starters at interval 3 is solved
by the greedy allocator (slots `{0, 3}`), but the optimal allocator's model is
infeasible: its interval variable's domain is `[3, min(12, 2 // 1)] = [3, 2]`,
because the model horizon `time_max` is the slot-count sum 2.  Phase 1
therefore raises `InfeasibleError` (the exact solver reports infeasibility). -/
theorem claim_C8_optimal_counterexample :
    (generate_slots_greedily cexC8 10).toOption = some [(1, AffineSeq.mk 0 6 3)] ∧
    ¬ ∃ iv off : Nat → Int, Feasible cexC8 iv off := by
  constructor
  · decide
  · rintro ⟨iv, off, hf⟩
    have h0 : 0 < (modelCounts cexC8).length := by decide
    have h1 := hf.1 0 h0
    have e2 : intervalUB (modelTimeMax cexC8) ((modelCounts cexC8).getD 0 0) = 2 := by decide
    have e3 : cexC8.interval = 3 := rfl
    rw [e2, e3] at h1
    omega

/-- C8 (amended): whenever the greedy allocator succeeds on an instance
without conflict groups and with a cap that is not `some 0`, every course
needing at least one slot, and the greedy solution fitting the optimal model's
variable domains (its interval below each course's interval bound, each
course's last slot within the model horizon `time_max = sum of slot counts`),
the phase-1 model is feasible and its optimal `last_start` is at most the
greedy solution's last start. -/
theorem claim_C8_optimal_amended (sc : StartConstraints) (tm : Nat)
    (res : List (Nat × AffineSeq))
    (hconf : sc.conflicts = [])
    (hpm0 : sc.parallel_max ≠ some 0)
    (hnodup : ((course_slot_counts sc).map Prod.fst).Nodup)
    (hok : generate_slots_greedily sc tm = .ok res)
    (hcnt : ∀ p ∈ course_slot_counts sc, 1 ≤ p.2)
    (hivfit : ∀ p ∈ course_slot_counts sc, sc.interval ≤ intervalUB (modelTimeMax sc) p.2)
    (htmfit : ∀ q ∈ res, seqLast q.2 ≤ modelTimeMax sc) :
    (∃ iv off : Nat → Int, Feasible sc iv off) ∧
    ∀ o : Int, Phase1Optimal sc o → o ≤ greedyLastStart res := by
  have hok0 := hok
  rw [generate_slots_greedily] at hok
  obtain ⟨news, hres, hfa⟩ := greedyGo_shape sc tm _ [] res hok
  rw [List.nil_append] at hres
  rw [← hres] at hfa
  clear hres hok
  set srt := (course_slot_counts sc).insertionSort countGe with hsrt_def
  have hperm : srt.Perm (course_slot_counts sc) := List.perm_insertionSort _ _
  have hkeys_eq : res.map Prod.fst = srt.map Prod.fst :=
    forall₂_fst_eq (fun p q hR => hR.1) hfa
  have hnd_res : (res.map Prod.fst).Nodup := by
    rw [hkeys_eq]
    exact ((hperm.map Prod.fst).nodup_iff).mpr hnodup
  have hlook : ∀ q ∈ res, lookupSlots res q.1 = some q.2 := by
    intro q hq
    have h2 : (q.1, q.2) ∈ res := by rw [Prod.mk.eta]; exact hq
    exact lookupSlots_eq_some hnd_res h2
  set iv : Nat → Int := fun _ => sc.interval with hiv_def
  set off : Nat → Int := fun i =>
    match lookupSlots res ((modelIds sc).getD i 0) with
    | some s => s.start
    | none => 0 with hoff_def
  have hlen_counts : (modelCounts sc).length = (course_slot_counts sc).length := by
    rw [modelCounts, List.length_map]
  have hpackage : ∀ i, i < (modelCounts sc).length →
      ∃ (fnat : Nat) (cnt : Int),
        ((modelIds sc).getD i 0, cnt) ∈ course_slot_counts sc ∧
        (modelCounts sc).getD i 0 = cnt ∧
        1 ≤ sc.interval ∧
        off i = (fnat : Int) ∧
        lookupSlots res ((modelIds sc).getD i 0) =
          some (AffineSeq.mk (fnat : Int) ((fnat : Int) + sc.interval * cnt) sc.interval) ∧
        ((modelIds sc).getD i 0,
          AffineSeq.mk (fnat : Int) ((fnat : Int) + sc.interval * cnt) sc.interval) ∈ res := by
    intro i hi
    have hi' : i < (course_slot_counts sc).length := by rwa [hlen_counts] at hi
    have hp_mem : (course_slot_counts sc).getD i (0, 0) ∈ course_slot_counts sc :=
      getD_mem_of_lt hi' (0, 0)
    have hid : (modelIds sc).getD i 0 = ((course_slot_counts sc).getD i (0, 0)).1 := by
      rw [modelIds]
      exact getD_map_of_lt hi' 0 (0, 0)
    have hcse : (modelCounts sc).getD i 0 = ((course_slot_counts sc).getD i (0, 0)).2 := by
      rw [modelCounts]
      exact getD_map_of_lt hi' 0 (0, 0)
    have hp_srt : (course_slot_counts sc).getD i (0, 0) ∈ srt := hperm.mem_iff.mpr hp_mem
    obtain ⟨q, hq_res, hq1, hitv, f, hq2⟩ := forall₂_mem_left hfa hp_srt
    have hlookp : lookupSlots res ((modelIds sc).getD i 0) = some q.2 := by
      rw [hid, ← hq1]
      exact hlook q hq_res
    refine ⟨f, ((course_slot_counts sc).getD i (0, 0)).2, ?_, hcse, hitv, ?_, ?_, ?_⟩
    · rw [hid, Prod.mk.eta]
      exact hp_mem
    · simp only [hoff_def]
      rw [hlookp, hq2]
    · rw [hlookp, hq2]
    · have hqq : q = ((modelIds sc).getD i 0,
          AffineSeq.mk (f : Int)
            ((f : Int) + sc.interval * ((course_slot_counts sc).getD i (0, 0)).2)
            sc.interval) := by
        rw [hid, ← hq1, ← hq2, Prod.mk.eta]
      rw [← hqq]
      exact hq_res
  -- the two objective values coincide
  have hparEq : ∀ t : Int, parallelModel sc iv off t = parallelCount res t := by
    intro t
    rw [parallelModel]
    have hA : ∀ i ∈ List.range (modelCounts sc).length,
        courseHits ((modelCounts sc).getD i 0) (off i) (iv i) t =
          (fun p : Nat × Int =>
            match lookupSlots res p.1 with
            | some s => if s.containsi t then 1 else 0
            | none => 0) ((course_slot_counts sc).getD i (0, 0)) := by
      intro i hi
      rw [List.mem_range] at hi
      obtain ⟨f, cnt, hmemc, hcse, hitv, hoffi, hlk, hmemres⟩ := hpackage i hi
      have hid : (modelIds sc).getD i 0 = ((course_slot_counts sc).getD i (0, 0)).1 := by
        rw [modelIds]
        exact getD_map_of_lt (by rwa [hlen_counts] at hi) 0 (0, 0)
      rw [hcse, hoffi]
      have hivi : iv i = sc.interval := rfl
      rw [hivi, courseHits_eq hitv]
      dsimp only
      rw [← hid, hlk]
    rw [List.map_congr_left hA, hlen_counts]
    have hG := map_range_getD (fun p : Nat × Int =>
      match lookupSlots res p.1 with
      | some s => if s.containsi t then 1 else 0
      | none => 0) (0, 0) (course_slot_counts sc)
    rw [hG]
    have hB := (hperm.map (fun p : Nat × Int =>
      match lookupSlots res p.1 with
      | some s => if s.containsi t then 1 else 0
      | none => 0)).sum_eq
    rw [← hB]
    have hC : srt.map (fun p : Nat × Int =>
        match lookupSlots res p.1 with
        | some s => if s.containsi t then 1 else 0
        | none => 0) = res.map (fun q => if q.2.containsi t then 1 else 0) := by
      refine forall₂_map_eq (forall₂_mem_enrich hfa) ?_
      rintro p q ⟨⟨hq1, -, -⟩, -, hq_res⟩
      rw [← hq1, hlook q hq_res]
    rw [hC, sum_map_ind, parallelCount, List.countP_eq_length_filter]
  have hfeas : Feasible sc iv off := by
    refine ⟨?_, ?_, ?_, ?_, ?_⟩
    · intro i hi
      obtain ⟨f, cnt, hmemc, hcse, hitv, hoffi, hlk, hmemres⟩ := hpackage i hi
      refine ⟨le_refl _, ?_⟩
      rw [hcse]
      exact hivfit _ hmemc
    · intro i hi
      obtain ⟨f, cnt, hmemc, hcse, hitv, hoffi, hlk, hmemres⟩ := hpackage i hi
      have hcnt1 : 1 ≤ cnt := hcnt _ hmemc
      have hlast := htmfit _ hmemres
      rw [seqLast_block hitv (by omega)] at hlast
      rw [hoffi, hcse]
      constructor
      · positivity
      · have hmc : sc.interval * (cnt - 1) = (cnt - 1) * sc.interval := mul_comm _ _
        omega
    · intro i hi k hk0 hkcnt
      obtain ⟨f, cnt, hmemc, hcse, hitv, hoffi, hlk, hmemres⟩ := hpackage i hi
      have hcnt1 : 1 ≤ cnt := hcnt _ hmemc
      have hlast := htmfit _ hmemres
      rw [seqLast_block hitv (by omega)] at hlast
      rw [hcse] at hkcnt
      have hivi : iv i = sc.interval := rfl
      rw [hoffi, hivi]
      have hk1 : sc.interval * k ≤ sc.interval * (cnt - 1) :=
        mul_le_mul_of_nonneg_left (by omega) (by omega)
      have hk2 : 0 ≤ sc.interval * k := mul_nonneg (by omega) hk0
      constructor
      · positivity
      · omega
    · intro g hg
      rw [modelGroups, hconf] at hg
      simp at hg
    · intro m hpm t ht htm
      have hm0 : m ≠ 0 := by
        intro h
        exact hpm0 (by rw [hpm, h])
      rw [hparEq t]
      exact greedy_cap_of_no_conflicts hconf hpm hm0 hok0 t
  have hlastEq : lastStartOf sc iv off = greedyLastStart res := by
    rw [lastStartOf]
    have hfm : ∀ i ∈ List.range (modelCounts sc).length,
        (if 1 ≤ (modelCounts sc).getD i 0 then
          some (off i + iv i * ((modelCounts sc).getD i 0 - 1)) else none) =
        some ((fun p : Nat × Int =>
          (match lookupSlots res p.1 with | some s => s.start | none => 0) +
            sc.interval * (p.2 - 1)) ((course_slot_counts sc).getD i (0, 0))) := by
      intro i hi
      rw [List.mem_range] at hi
      obtain ⟨f, cnt, hmemc, hcse, hitv, hoffi, hlk, hmemres⟩ := hpackage i hi
      have hcnt1 : 1 ≤ cnt := hcnt _ hmemc
      have hid : (modelIds sc).getD i 0 = ((course_slot_counts sc).getD i (0, 0)).1 := by
        rw [modelIds]
        exact getD_map_of_lt (by rwa [hlen_counts] at hi) 0 (0, 0)
      rw [if_pos (by rw [hcse]; omega)]
      have hivi : iv i = sc.interval := rfl
      have hcse2 : ((course_slot_counts sc).getD i (0, 0)).2 = cnt := by
        rw [← hcse, modelCounts]
        exact (getD_map_of_lt (by rwa [hlen_counts] at hi) 0 (0, 0)).symm
      dsimp only
      rw [hoffi, hivi, hcse, ← hid, hlk, hcse2]
    rw [filterMap_eq_map_of_some hfm, hlen_counts]
    have hG := map_range_getD (fun p : Nat × Int =>
      (match lookupSlots res p.1 with | some s => s.start | none => 0) +
        sc.interval * (p.2 - 1)) (0, 0) (course_slot_counts sc)
    rw [hG]
    have hD : ((course_slot_counts sc).map (fun p : Nat × Int =>
        (match lookupSlots res p.1 with | some s => s.start | none => 0) +
          sc.interval * (p.2 - 1))).foldl max 0 =
        (srt.map (fun p : Nat × Int =>
        (match lookupSlots res p.1 with | some s => s.start | none => 0) +
          sc.interval * (p.2 - 1))).foldl max 0 :=
      foldl_max_perm (hperm.map _).symm 0
    rw [hD]
    have hE : srt.map (fun p : Nat × Int =>
        (match lookupSlots res p.1 with | some s => s.start | none => 0) +
          sc.interval * (p.2 - 1)) = res.map (fun q => seqLast q.2) := by
      refine forall₂_map_eq (forall₂_mem_enrich hfa) ?_
      rintro p q ⟨⟨hq1, hitv, f, hq2⟩, hp_srt, hq_res⟩
      have hcnt1 : 1 ≤ p.2 := hcnt _ (hperm.mem_iff.mp hp_srt)
      rw [← hq1, hlook q hq_res, hq2, seqLast_block hitv (by omega)]
    rw [hE]
    rw [greedyLastStart]
    have hF : ∀ q ∈ res, (if q.2.length ≠ 0 then some (seqLast q.2) else none) =
        some (seqLast q.2) := by
      intro q hq
      obtain ⟨p, hp_srt, hq1, hitv, f, hq2⟩ := forall₂_mem_right hfa hq
      have hcnt1 : 1 ≤ p.2 := hcnt _ (hperm.mem_iff.mp hp_srt)
      rw [if_pos ?_]
      rw [hq2, affine_block_length hitv]
      omega
    rw [filterMap_eq_map_of_some hF]
  refine ⟨⟨iv, off, hfeas⟩, ?_⟩
  intro o hopt
  have := hopt.2 iv off hfeas
  rwa [hlastEq] at this

/-- Witness for C8 (amended): a single course with two slots at interval 1. -/
theorem claim_C8_optimal_amended_witness :
    (∃ iv off : Nat → Int, Feasible ⟨[(1, [vcat 2])], none, 1, []⟩ iv off) ∧
    ∀ o : Int, Phase1Optimal ⟨[(1, [vcat 2])], none, 1, []⟩ o →
      o ≤ greedyLastStart [(1, AffineSeq.mk 0 2 1)] :=
  claim_C8_optimal_amended ⟨[(1, [vcat 2])], none, 1, []⟩ 5
    [(1, AffineSeq.mk 0 2 1)] rfl (by simp) (by decide) rfl
    (by decide) (by decide) (by decide)

/-- Witness for C3 (amended) at concrete sequences. -/
theorem claim_C3_intersection_amended_witness :
    (((AffineSeq.mk 1 10 2).inter (AffineSeq.mk 3 12 3)).containsi 7 = true ↔
      (AffineSeq.mk 1 10 2).containsi 7 = true ∧
        (AffineSeq.mk 3 12 3).containsi 7 = true) ∧
    ((AffineSeq.mk 1 10 2).inter (AffineSeq.mk 3 12 3)).step = lcm 2 3 :=
  claim_C3_intersection_amended (AffineSeq.mk 1 10 2) (AffineSeq.mk 3 12 3) 7
    (by decide) (by decide) (by decide)

end Holper
